import Mathlib

/-!
Verification of the checkers engine in `board.py` (`SparseBoard`, `BoardGenerator`,
`ExploreState`).  The Python data structures are shallowly embedded: a Python
`dict` becomes an insertion-ordered association list with first-match lookup,
replace-or-append store and remove-first delete, which reproduces dict key
uniqueness and iteration order for dicts built through these operations.
Python floats that only ever hold exact values or infinities become the
inductive `Score`; fallible code (KeyError / ZeroDivisionError) returns
`Option` / `Except`.
-/

namespace Checkers

/-- First-match lookup in an association list (Python `dict.__getitem__` /
`dict.get` membership part). -/
def lookupA {κ ν : Type} [DecidableEq κ] : List (κ × ν) → κ → Option ν
  | [], _ => none
  | kv :: rest, k => if kv.1 = k then some kv.2 else lookupA rest k

/-- Python `dict.get(k, d)`. -/
def getDA {κ ν : Type} [DecidableEq κ] (l : List (κ × ν)) (k : κ) (d : ν) : ν :=
  (lookupA l k).getD d

/-- Python `dict.__setitem__`: replace the (unique) existing binding in place,
otherwise append at the end (dicts are insertion ordered). -/
def setA {κ ν : Type} [DecidableEq κ] : List (κ × ν) → κ → ν → List (κ × ν)
  | [], k, v => [(k, v)]
  | kv :: rest, k, v => if kv.1 = k then (k, v) :: rest else kv :: setA rest k v

/-- Python `dict.__delitem__`: remove the (unique) binding for `k`.  (Python
raises `KeyError` when `k` is absent; every call site in `board.py` modelled
here has the key present, so the absent case is a no-op.) -/
def delA {κ ν : Type} [DecidableEq κ] : List (κ × ν) → κ → List (κ × ν)
  | [], _ => []
  | kv :: rest, k => if kv.1 = k then rest else kv :: delA rest k

/-- Concatenation of the images of `f`, in order: the accumulation pattern
`for a in l: out.extend(f(a))`. -/
def flatMapL {α β : Type} (f : α → List β) : List α → List β
  | [] => []
  | a :: l => f a ++ flatMapL f l

abbrev BoardPos := ℤ × ℤ

abbrev Cell := BoardPos × ℤ

/-- `SparseBoard`: width, height and the sparse square map `sparse_board`
(only occupied squares are stored; 1 red man, 2 red king, -1 black man,
-2 black king). -/
structure SparseBoard where
  width : ℤ := 8
  height : ℤ := 8
  board : List Cell := []
deriving DecidableEq

/-- `len(self.sparse_board)`: number of occupied squares. -/
def pieceCount (b : SparseBoard) : ℕ := b.board.length

/-- The bounds-checked occupation probe used throughout `board.py`:
`self.sparse_board.get(loc, 0) if 0 <= loc[0] < self.width and 0 <= loc[1] < self.height else None`. -/
def occ (b : SparseBoard) (p : BoardPos) : Option ℤ :=
  if 0 ≤ p.1 ∧ p.1 < b.width ∧ 0 ≤ p.2 ∧ p.2 < b.height then some (getDA b.board p 0)
  else none

/-- `potential_moves = [(1, -player), (-1, -player)]`, extended by
`[(1, player), (-1, player)]` for kings. -/
def potentialMoves (isKing : Bool) (player : ℤ) : List BoardPos :=
  if isKing then [(1, -player), (-1, -player), (1, player), (-1, player)]
  else [(1, -player), (-1, -player)]

/-- `SparseBoard._perform_move`: copy, delete the origin, promote a man whose
destination row `y + move[1]` is its king row (`0` for red, `height-1` for
black), store the piece at the destination. -/
def performMove (b : SparseBoard) (x y : ℤ) (m : BoardPos) : SparseBoard :=
  let val := getDA b.board (x, y) 0
  let newVal :=
    if val.natAbs = 1 then
      if y + m.2 = (if 0 < val then 0 else b.height - 1) then val * 2 else val
    else val
  { b with board := setA (delA b.board (x, y)) (x + m.1, y + m.2) newVal }

/-- `SparseBoard._perform_jump`: copy, delete the origin and the jumped square,
promote a man whose landing row `y + move[1]*2` is its king row, store the
piece two diagonal steps away. -/
def performJump (b : SparseBoard) (x y : ℤ) (m : BoardPos) : SparseBoard :=
  let val := getDA b.board (x, y) 0
  let newVal :=
    if val.natAbs = 1 then
      if y + m.2 * 2 = (if 0 < val then 0 else b.height - 1) then val * 2 else val
    else val
  let cleared := delA (delA b.board (x, y)) (x + m.1, y + m.2)
  { b with board := setA cleared (x + m.1 * 2, y + m.2 * 2) newVal }

/-- The jump guard shared by `get_successors` and `_follow_jump`:
`move_occupation is not None and move_occupation * player < 0 and jump_occupation == 0`
(in Python `None == 0` is `False`, so the last conjunct forces an in-bounds
empty landing square). -/
def jumpGuard (b : SparseBoard) (player : ℤ) (p : BoardPos) (m : BoardPos) : Bool :=
  match occ b (p.1 + m.1, p.2 + m.2), occ b (p.1 + m.1 * 2, p.2 + m.2 * 2) with
  | some w, jo => decide (w * player < 0) && decide (jo = some 0)
  | none, _ => false

/-- `SparseBoard._follow_jump`: perform the jump, then look for further jumps
of the same piece from the landing square; note that the source checks the
continuation squares on `self` (the board *before* the current jump) and that
`is_king` is the rank the piece had when the turn started, never updated.
The recursion consumes one captured enemy per level, so the `fuel` seeded by
`get_successors` (`pieceCount + 1`) is never exhausted. -/
def followJump (self : SparseBoard) (fuel : ℕ) (x y : ℤ) (m : BoardPos)
    (isKing : Bool) (player : ℤ) : List SparseBoard :=
  match fuel with
  | 0 => []
  | fuel' + 1 =>
    let newBoard := performJump self x y m
    let nx := x + m.1 * 2
    let ny := y + m.2 * 2
    let conts := flatMapL
      (fun mv =>
        if jumpGuard self player (nx, ny) mv then
          followJump newBoard fuel' nx ny mv isKing player
        else [])
      (potentialMoves isKing player)
    if conts.isEmpty then [newBoard] else conts

/-- The tuple order Python's `sorted` uses on `((x, y), val)` items. -/
def cellRel (a b : Cell) : Prop :=
  a.1.1 < b.1.1 ∨ (a.1.1 = b.1.1 ∧ (a.1.2 < b.1.2 ∨ (a.1.2 = b.1.2 ∧ a.2 ≤ b.2)))

instance : DecidableRel cellRel := fun a b => by unfold cellRel; infer_instance

instance : IsTotal Cell cellRel := by
  constructor
  intro a b
  unfold cellRel
  omega

instance : IsTrans Cell cellRel := by
  constructor
  intro a b c hab hbc
  unfold cellRel at *
  omega

instance : IsAntisymm Cell cellRel := by
  constructor
  intro a b hab hba
  unfold cellRel at *
  have h1 : a.1.1 = b.1.1 ∧ a.1.2 = b.1.2 ∧ a.2 = b.2 := by omega
  obtain ⟨c1, c2, c3⟩ := h1
  obtain ⟨⟨ax, ay⟩, av⟩ := a
  obtain ⟨⟨bx, by'⟩, bv⟩ := b
  simp only at c1 c2 c3
  simp [c1, c2, c3]

/-- `SparseBoard.__hash__`: the source hashes
`json.dumps(tuple(sorted(self.sparse_board.items())), sort_keys=True)`.
We model the hash by the deterministic hash *input*: the items sorted in
Python tuple order (the JSON rendering of that tuple, and Python's string
hash on top of it, are not modelled; the JSON rendering is injective on this
shape, while the final 64-bit string hash is a platform function). -/
def boardHash (b : SparseBoard) : List Cell := List.insertionSort cellRel b.board

/-- The dedup-by-hash loop closing `get_successors`: keep a successor only if
its hash was not seen before, preserving order. -/
def dedupByHash : List SparseBoard → List (List Cell) → List SparseBoard
  | [], _ => []
  | s :: rest, seen =>
    if boardHash s ∈ seen then dedupByHash rest seen
    else s :: dedupByHash rest (boardHash s :: seen)

/-- `SparseBoard.get_successors`: one pass over the occupied squares collects
single-step moves and jump sequences into two lists (rendered here as two
comprehensions in the same iteration order); jumps are exclusive when any
exist; finally duplicates are removed by hash. -/
def get_successors (b : SparseBoard) (player : ℤ) : List SparseBoard :=
  let moveSuccs := flatMapL
    (fun c =>
      if 0 < c.2 * player then
        flatMapL
          (fun m =>
            if occ b (c.1.1 + m.1, c.1.2 + m.2) = some 0 then [performMove b c.1.1 c.1.2 m]
            else [])
          (potentialMoves (decide (c.2 * player = 2)) player)
      else []) b.board
  let jumpSuccs := flatMapL
    (fun c =>
      if 0 < c.2 * player then
        flatMapL
          (fun m =>
            if jumpGuard b player c.1 m then
              followJump b (pieceCount b + 1) c.1.1 c.1.2 m (decide (c.2 * player = 2)) player
            else [])
          (potentialMoves (decide (c.2 * player = 2)) player)
      else []) b.board
  dedupByHash (if jumpSuccs.isEmpty then moveSuccs else jumpSuccs) []

/-- Scores: the Python floats used by the engine only ever hold exact
rationals or the two infinities. -/
inductive Score where
  | negInf : Score
  | posInf : Score
  | val : ℚ → Score
deriving DecidableEq

/-- `value > 0` on a score. -/
def scoreGtZero : Score → Bool
  | .posInf => true
  | .negInf => false
  | .val q => decide (0 < q)

/-- `value < 0` on a score. -/
def scoreLtZero : Score → Bool
  | .posInf => false
  | .negInf => true
  | .val q => decide (q < 0)

/-- Python `int * float` as used on scores (`player * float("-inf")`); the
`n = 0` infinity case would be `nan` in Python and is unreachable here. -/
def mulIntScore (n : ℤ) : Score → Score
  | .negInf => if 0 < n then .negInf else if n < 0 then .posInf else .val 0
  | .posInf => if 0 < n then .posInf else if n < 0 then .negInf else .val 0
  | .val q => .val (n * q)

/-- `SparseBoard.is_end`: `-inf` when red has no pieces, else `+inf` when
black has no pieces, else `0`. -/
def is_end (b : SparseBoard) : Score :=
  let red_pieces := (b.board.filter (fun c => decide (0 < c.2))).length
  let black_pieces := (b.board.filter (fun c => decide (c.2 < 0))).length
  if red_pieces = 0 then .negInf
  else if black_pieces = 0 then .posInf
  else .val 0

/-- `SparseBoard.evaluate`: `(Σ piece values) / (piece count)`.  The division
is unguarded in the source; on an empty board Python raises
`ZeroDivisionError`, modelled as `none`. -/
def evaluate (b : SparseBoard) : Option ℚ :=
  let total_score : ℤ := (b.board.map (fun c => c.2)).sum
  let total_pieces := b.board.length
  if total_pieces = 0 then none else some ((total_score : ℚ) / (total_pieces : ℚ))

/-- `SparseBoard.utility`: `return self.evaluate()`. -/
def utility (b : SparseBoard) : Option ℚ := evaluate b

abbrev BKey := List Cell

/-- `ExploreState`: the per-search context.  Only the pure fields are
modelled; the telemetry counters (`cache_hits`, `pruned_count`, ...), the
successor stack and the path log are I/O or search-driver state not touched
by the claims. -/
structure ExploreState where
  use_evaluation_cache : Bool := true
  use_utility_cache : Bool := true
  use_score_cache : Bool := true
  use_pruning : Bool := true
  use_cycle_detection : Bool := true
  evaluation_cache : List (BKey × ℚ) := []
  utility_cache : List (BKey × ℚ) := []
  score_cache : List (BKey × (Score × ℤ × ℤ)) := []
  strategy : List ((BKey × ℤ) × (SparseBoard × Score)) := []

/-- `ExploreState.get_cached_score`: a cached score is returned only when the
cache is enabled, the hash has an entry, the query depth is at most the
cached depth, and the player matches.  (The `cache_hits` increment on the hit
path is telemetry and not modelled.) -/
def get_cached_score (es : ExploreState) (_board : SparseBoard) (board_hash : BKey)
    (depth : ℤ) (player : ℤ) : Option Score :=
  if !es.use_score_cache then none
  else
    match lookupA es.score_cache board_hash with
    | some (cachedScore, cachedDepth, cachedPlayer) =>
      if depth ≤ cachedDepth ∧ player = cachedPlayer then some cachedScore else none
    | none => none

/-- `ExploreState.cache_score`: unconditionally store
`(score, depth, player)` under the hash, replacing any prior entry. -/
def cache_score (es : ExploreState) (_board : SparseBoard) (board_hash : BKey)
    (depth : ℤ) (player : ℤ) (score : Score) : ExploreState :=
  { es with score_cache := setA es.score_cache board_hash (score, depth, player) }

/-- `ExploreState.get_terminal_value_and_succ`: win/loss by `is_end`, else a
side with no successors loses (`player * float("-inf")`), else score `0` with
the successor list. -/
def get_terminal_value_and_succ (b : SparseBoard) (player : ℤ) : Score × List SparseBoard :=
  let value := is_end b
  if scoreGtZero value then (.posInf, [])
  else if scoreLtZero value then (.negInf, [])
  else
    let successors := get_successors b player
    if successors.isEmpty then (mulIntScore player .negInf, [])
    else (.val 0, successors)

/-- The `while` loop of `ExploreState.recover_best_path`: follow the strategy
map, stop on a lookup miss or when the next board's hash is in `in_path`
(the hashes of the boards appended so far; the root's hash is never added).
Each iteration adds a fresh hash drawn from the strategy's range to
`in_path`, so the loop runs at most `strategy.length + 1` times; `fuel`
seeded with that bound reproduces it exactly. -/
def recoverAux (strategy : List ((BKey × ℤ) × (SparseBoard × Score))) :
    ℕ → SparseBoard → ℤ → List BKey → List SparseBoard
  | 0, _, _, _ => []
  | fuel + 1, board, player, inPath =>
    match lookupA strategy (boardHash board, player) with
    | none => []
    | some (nextBoard, _) =>
      if boardHash nextBoard ∈ inPath then []
      else nextBoard :: recoverAux strategy fuel nextBoard (-player) (boardHash nextBoard :: inPath)

/-- `ExploreState.recover_best_path`: the path starts at the root board and
follows the recorded best moves, flipping the player each step. -/
def recover_best_path (es : ExploreState) (board : SparseBoard) (player : ℤ) :
    List SparseBoard :=
  board :: recoverAux es.strategy (es.strategy.length + 1) board player []

/-- `char_to_int`, as an optional lookup: Python raises `KeyError` on any
other character (modelled as `none`). -/
def charToIntOpt (c : Char) : Option ℤ :=
  if c = 'r' then some 1
  else if c = 'R' then some 2
  else if c = 'b' then some (-1)
  else if c = 'B' then some (-2)
  else none

/-- `int_to_char` (including `0 -> '.'`); `dict.get` yields `None` on other
values, which would crash the string concatenation in `__str__`. -/
def intToCharOpt (v : ℤ) : Option Char :=
  if v = 1 then some 'r'
  else if v = 2 then some 'R'
  else if v = -1 then some 'b'
  else if v = -2 then some 'B'
  else if v = 0 then some '.'
  else none

/-- Python whitespace, `str.isspace`: the set an argument-less
`str.rstrip()` strips.  Code points: U+0009-U+000D, U+001C-U+001F, U+0020,
U+0085 (NEL), U+00A0 (NBSP), U+1680 (OGHAM SPACE MARK), U+2000-U+200A,
U+2028 (LINE SEPARATOR), U+2029 (PARAGRAPH SEPARATOR), U+202F (NARROW
NBSP), U+205F (MEDIUM MATHEMATICAL SPACE), U+3000 (IDEOGRAPHIC SPACE). -/
def isPySpace (c : Char) : Bool :=
  (9 ≤ c.toNat && c.toNat ≤ 13) || (28 ≤ c.toNat && c.toNat ≤ 31) ||
  c.toNat = 32 || c.toNat = 133 || c.toNat = 160 || c.toNat = 5760 ||
  (8192 ≤ c.toNat && c.toNat ≤ 8202) || c.toNat = 8232 || c.toNat = 8233 ||
  c.toNat = 8239 || c.toNat = 8287 || c.toNat = 12288

/-- Python `line.rstrip()`: drop trailing Python whitespace. -/
def pyRstrip (l : List Char) : List Char :=
  (l.reverse.dropWhile isPySpace).reverse

/-- The line boundaries recognized by Python `str.splitlines`:
U+000A (`\n`), U+000D (`\r`, with `\r\n` as a single boundary — handled by
`splitLinesAux`), U+000B (`\v`), U+000C (`\f`), U+001C (FS), U+001D (GS),
U+001E (RS), U+0085 (NEL), U+2028 (LINE SEPARATOR), U+2029 (PARAGRAPH
SEPARATOR). -/
def isLineBreak (c : Char) : Bool :=
  c = '\n' || c = '\r' || c = Char.ofNat 11 || c = Char.ofNat 12 ||
  c = Char.ofNat 28 || c = Char.ofNat 29 || c = Char.ofNat 30 ||
  c = Char.ofNat 133 || c = Char.ofNat 8232 || c = Char.ofNat 8233

/-- Helper for `splitLines`: `cur` is the reversed current line; `skipLF`
records that the previous character was `\r`, so an immediately following
`\n` belongs to the same `\r\n` boundary and is consumed silently. -/
def splitLinesAux : Bool → List Char → List Char → List (List Char)
  | _, cur, [] => if cur.isEmpty then [] else [cur.reverse]
  | skipLF, cur, c :: rest =>
    if skipLF && (c = '\n') then splitLinesAux false cur rest
    else if c = '\r' then cur.reverse :: splitLinesAux true [] rest
    else if isLineBreak c then cur.reverse :: splitLinesAux false [] rest
    else splitLinesAux false (c :: cur) rest

/-- Python `str.splitlines`: split at the boundaries of `isLineBreak`,
`\r\n` counting as one boundary, with no empty final line after a trailing
boundary. -/
def splitLines (l : List Char) : List (List Char) := splitLinesAux false [] l

/-- Failure kinds of board reading.  `badFormat` models the `KeyError` the
source raises on a character outside `char_to_int` (the spec's `BadFormat`). -/
inductive ReadError where
  | badFormat : ReadError
deriving DecidableEq

instance {ε α : Type} [DecidableEq ε] [DecidableEq α] : DecidableEq (Except ε α) := fun x y =>
  match x, y with
  | .ok a, .ok b =>
    decidable_of_iff (a = b) ⟨fun h => by rw [h], fun h => by injection h⟩
  | .error a, .error b =>
    decidable_of_iff (a = b) ⟨fun h => by rw [h], fun h => by injection h⟩
  | .ok _, .error _ => .isFalse (fun hc => by injection hc)
  | .error _, .ok _ => .isFalse (fun hc => by injection hc)

/-- `for x, char in enumerate(line.rstrip())`: skip `'.'`, store any piece
character, fail on anything else. -/
def parseLineGo (y : ℤ) : ℤ → List Char → List Cell → Except ReadError (List Cell)
  | _, [], acc => .ok acc
  | x, c :: rest, acc =>
    if c = '.' then parseLineGo y (x + 1) rest acc
    else
      match charToIntOpt c with
      | some v => parseLineGo y (x + 1) rest (setA acc (x, y) v)
      | none => .error .badFormat

/-- `for y, line in enumerate(...)` over the split lines. -/
def readLinesGo : ℤ → List (List Char) → List Cell → Except ReadError (List Cell)
  | _, [], acc => .ok acc
  | y, line :: rest, acc =>
    match parseLineGo y 0 (pyRstrip line) acc with
    | .ok acc2 => readLinesGo (y + 1) rest acc2
    | .error e => .error e

/-- `SparseBoard.read_from_string` (and the per-line loop of
`read_from_file`, which differs only in where the lines come from): build a
default 8x8 `SparseBoard` from the text grid. -/
def read_from_string (text : List Char) : Except ReadError SparseBoard :=
  match readLinesGo 0 (splitLines text) [] with
  | .ok cells => .ok { width := 8, height := 8, board := cells }
  | .error e => .error e

/-- One row of `SparseBoard.__str__`: the characters for the given column
indices (failing if some stored value has no character). -/
def renderCells (b : SparseBoard) (y : ℤ) : List ℕ → Option (List Char)
  | [] => some []
  | x :: rest =>
    match intToCharOpt (getDA b.board ((x : ℤ), y) 0), renderCells b y rest with
    | some c, some cs => some (c :: cs)
    | _, _ => none

/-- The rows of `SparseBoard.__str__`, each terminated by `'\n'`. -/
def renderRows (b : SparseBoard) : List ℕ → Option (List Char)
  | [] => some []
  | y :: rest =>
    match renderCells b (y : ℤ) (List.range b.width.toNat), renderRows b rest with
    | some row, some more => some (row ++ '\n' :: more)
    | _, _ => none

/-- `SparseBoard.__str__` / `render`. -/
def render (b : SparseBoard) : Option (List Char) :=
  renderRows b (List.range b.height.toNat)

/-- The character set the reader accepts: `'.'` plus the keys of
`char_to_int`. -/
def allowedChar (c : Char) : Bool :=
  c = '.' || c = 'r' || c = 'R' || c = 'b' || c = 'B'

/-- The total square-to-character map realized by `int_to_char` on the value
range actually stored in boards ('.'` for any out-of-range value; used only
to state round-trip facts, the renderer itself uses `intToCharOpt`). -/
def chrOf (v : ℤ) : Char :=
  if v = 1 then 'r'
  else if v = 2 then 'R'
  else if v = -1 then 'b'
  else if v = -2 then 'B'
  else '.'

/-- The characters of one rendered row. -/
def rowChars (b : SparseBoard) (y : ℤ) : List Char :=
  (List.range b.width.toNat).map (fun x : ℕ => chrOf (getDA b.board ((x : ℤ), y) 0))

/-- Data-model invariant: stored values are piece codes. -/
def valsRange (b : SparseBoard) : Prop :=
  ∀ c ∈ b.board, c.2 = 1 ∨ c.2 = 2 ∨ c.2 = -1 ∨ c.2 = -2

instance (b : SparseBoard) : Decidable (valsRange b) := by
  unfold valsRange; infer_instance

/-- Data-model invariant: stored squares are never empty (value 0 is encoded
by absence). -/
def valsNonzero (b : SparseBoard) : Prop := ∀ c ∈ b.board, c.2 ≠ 0

/-- Data-model invariant: no two pieces share a square (automatic for a
Python dict). -/
def keysNodup (b : SparseBoard) : Prop := (b.board.map Prod.fst).Nodup

instance (b : SparseBoard) : Decidable (valsNonzero b) := by
  unfold valsNonzero; infer_instance

instance (b : SparseBoard) : Decidable (keysNodup b) := by
  unfold keysNodup; exact List.nodupDecidable _

/-- The distinct hashes found in the strategy map's range (used to bound the
`recover_best_path` walk). -/
def rangeHashes (strategy : List ((BKey × ℤ) × (SparseBoard × Score))) : List BKey :=
  (strategy.map (fun e => boardHash e.2.1)).dedup

/-- How many strategy-range hashes are not yet on the reconstructed path. -/
def remHashes (strategy : List ((BKey × ℤ) × (SparseBoard × Score))) (inPath : List BKey) : ℕ :=
  ((rangeHashes strategy).filter (fun h => !(decide (h ∈ inPath)))).length

/-- C2's concrete input: a red man at (4,2), black men at (3,1) and (1,1).
The jump over (3,1) lands on the king row at (2,0) and promotes; a king
there could continue over (1,1) to (0,2). -/
def promoBoard : SparseBoard :=
  { width := 8, height := 8
    board := [(((4 : ℤ), (2 : ℤ)), (1 : ℤ)), (((3 : ℤ), (1 : ℤ)), (-1 : ℤ)),
              (((1 : ℤ), (1 : ℤ)), (-1 : ℤ))] }

/-- The one successor the source actually produces for `promoBoard`:
promotion ends the sequence, the black man at (1,1) survives. -/
def promoBoardSucc : SparseBoard :=
  { width := 8, height := 8
    board := [(((1 : ℤ), (1 : ℤ)), (-1 : ℤ)), (((2 : ℤ), (0 : ℤ)), (2 : ℤ))] }

/-- A board where black (to move) is blocked: black king at (0,0), red kings
at (1,1) and (2,2); both colors present, black has no successors. -/
def cornerBoard : SparseBoard :=
  { width := 8, height := 8
    board := [(((0 : ℤ), (0 : ℤ)), (-2 : ℤ)), (((1 : ℤ), (1 : ℤ)), (2 : ℤ)),
              (((2 : ℤ), (2 : ℤ)), (2 : ℤ))] }

/-- A one-entry transposition cache used to instantiate the probe rule. -/
def cacheState : ExploreState :=
  { score_cache := [(([] : BKey), (Score.val 5, (3 : ℤ), (1 : ℤ)))] }

/-- A board with a capture available: red man at (2,4), black man at (3,3). -/
def captureBoard : SparseBoard :=
  { width := 8, height := 8
    board := [(((2 : ℤ), (4 : ℤ)), (1 : ℤ)), (((3 : ℤ), (3 : ℤ)), (-1 : ℤ))] }

/-- `captureBoard` with the red man's rank toggled to king (same square,
same color). -/
def toggledBoard : SparseBoard :=
  { width := 8, height := 8
    board := [(((2 : ℤ), (4 : ℤ)), (2 : ℤ)), (((3 : ℤ), (3 : ℤ)), (-1 : ℤ))] }

/-- C3's concrete root: a single red man at (0,0). -/
def loopRoot : SparseBoard :=
  { width := 8, height := 8, board := [(((0 : ℤ), (0 : ℤ)), (1 : ℤ))] }

/-- C3's concrete state: the strategy maps the root (for player 1) back to
the root itself. -/
def loopState : ExploreState :=
  { strategy := [((boardHash loopRoot, 1), (loopRoot, Score.val 0))] }

/-! ## Association-list lemmas -/

theorem mem_of_lookupA_eq_some {κ ν : Type} [DecidableEq κ] {l : List (κ × ν)} {k : κ} {v : ν}
    (h : lookupA l k = some v) : (k, v) ∈ l := by
  induction l with
  | nil => simp [lookupA] at h
  | cons kv rest ih =>
    rw [lookupA] at h
    by_cases hk : kv.1 = k
    · rw [if_pos hk] at h
      have hkv : kv = (k, v) := by
        obtain ⟨k0, v0⟩ := kv
        simp only at hk
        simp only [Option.some.injEq] at h
        rw [hk, h]
      rw [hkv]
      exact List.mem_cons_self _ _
    · rw [if_neg hk] at h
      exact List.mem_cons_of_mem _ (ih h)

theorem lookupA_eq_some_of_mem {κ ν : Type} [DecidableEq κ] {l : List (κ × ν)} {k : κ} {v : ν}
    (hnd : (l.map Prod.fst).Nodup) (h : (k, v) ∈ l) : lookupA l k = some v := by
  induction l with
  | nil => simp at h
  | cons kv rest ih =>
    simp only [List.map_cons, List.nodup_cons] at hnd
    rcases List.mem_cons.mp h with heq | hmem
    · rw [← heq, lookupA, if_pos rfl]
    · rw [lookupA]
      by_cases hk : kv.1 = k
      · exfalso
        exact hnd.1 (hk ▸ List.mem_map_of_mem Prod.fst hmem)
      · rw [if_neg hk]
        exact ih hnd.2 hmem

theorem lookupA_eq_none_iff {κ ν : Type} [DecidableEq κ] {l : List (κ × ν)} {k : κ} :
    lookupA l k = none ↔ ∀ v, (k, v) ∉ l := by
  induction l with
  | nil => exact ⟨fun _ v hv => by simp at hv, fun _ => rfl⟩
  | cons kv rest ih =>
    rw [lookupA]
    by_cases hk : kv.1 = k
    · rw [if_pos hk]
      constructor
      · intro h
        exact absurd h (by simp)
      · intro hall
        exact absurd (show (k, kv.2) ∈ kv :: rest by rw [← hk]; exact List.mem_cons_self _ _)
          (hall kv.2)
    · rw [if_neg hk, ih]
      constructor
      · intro hall v hv
        rcases List.mem_cons.mp hv with heq | hmem
        · exact hk (by rw [← heq])
        · exact hall v hmem
      · intro hall v hv
        exact hall v (List.mem_cons_of_mem _ hv)

theorem lookupA_setA_self {κ ν : Type} [DecidableEq κ] (l : List (κ × ν)) (k : κ) (v : ν) :
    lookupA (setA l k v) k = some v := by
  induction l with
  | nil => simp [setA, lookupA]
  | cons kv rest ih =>
    rw [setA]
    by_cases hk : kv.1 = k
    · rw [if_pos hk, lookupA, if_pos rfl]
    · rw [if_neg hk, lookupA, if_neg hk]
      exact ih

theorem lookupA_setA_ne {κ ν : Type} [DecidableEq κ] (l : List (κ × ν)) (k k2 : κ) (v : ν)
    (hne : k2 ≠ k) : lookupA (setA l k v) k2 = lookupA l k2 := by
  induction l with
  | nil =>
    show (if k = k2 then some v else lookupA [] k2) = lookupA [] k2
    rw [if_neg (fun h => hne h.symm)]
  | cons kv rest ih =>
    rw [setA]
    by_cases hk : kv.1 = k
    · rw [if_pos hk, lookupA, lookupA]
      have : ¬ (k = k2) := fun h => hne h.symm
      rw [if_neg this, if_neg (by rw [hk]; exact this)]
    · rw [if_neg hk, lookupA, lookupA]
      by_cases hk2 : kv.1 = k2
      · rw [if_pos hk2, if_pos hk2]
      · rw [if_neg hk2, if_neg hk2]
        exact ih

theorem lookupA_delA_ne {κ ν : Type} [DecidableEq κ] (l : List (κ × ν)) (k k2 : κ)
    (hne : k2 ≠ k) : lookupA (delA l k) k2 = lookupA l k2 := by
  induction l with
  | nil => simp [delA]
  | cons kv rest ih =>
    rw [delA]
    by_cases hk : kv.1 = k
    · rw [if_pos hk, lookupA, if_neg (by rw [hk]; exact fun h => hne h.symm)]
    · rw [if_neg hk, lookupA, lookupA]
      by_cases hk2 : kv.1 = k2
      · rw [if_pos hk2, if_pos hk2]
      · rw [if_neg hk2, if_neg hk2]
        exact ih

theorem length_delA_of_lookup {κ ν : Type} [DecidableEq κ] {l : List (κ × ν)} {k : κ} {v : ν}
    (h : lookupA l k = some v) : (delA l k).length + 1 = l.length := by
  induction l with
  | nil => simp [lookupA] at h
  | cons kv rest ih =>
    rw [lookupA] at h
    rw [delA]
    by_cases hk : kv.1 = k
    · rw [if_pos hk, List.length_cons]
    · rw [if_neg hk] at h
      rw [if_neg hk, List.length_cons, List.length_cons, ih h]

theorem delA_subset {κ ν : Type} [DecidableEq κ] (l : List (κ × ν)) (k : κ) :
    ∀ c ∈ delA l k, c ∈ l := by
  induction l with
  | nil => simp [delA]
  | cons kv rest ih =>
    intro c hc
    rw [delA] at hc
    by_cases hk : kv.1 = k
    · rw [if_pos hk] at hc
      exact List.mem_cons_of_mem _ hc
    · rw [if_neg hk] at hc
      rcases List.mem_cons.mp hc with heq | hmem
      · exact heq ▸ List.mem_cons_self _ _
      · exact List.mem_cons_of_mem _ (ih c hmem)

theorem delA_map_fst_sublist {κ ν : Type} [DecidableEq κ] (l : List (κ × ν)) (k : κ) :
    ((delA l k).map Prod.fst).Sublist (l.map Prod.fst) := by
  induction l with
  | nil => simp [delA]
  | cons kv rest ih =>
    rw [delA]
    by_cases hk : kv.1 = k
    · rw [if_pos hk, List.map_cons]
      exact (List.sublist_cons_self _ _).trans (List.Sublist.refl _) |>.trans (List.Sublist.refl _)
    · rw [if_neg hk, List.map_cons, List.map_cons]
      exact ih.cons₂ _

theorem setA_of_lookup_none {κ ν : Type} [DecidableEq κ] {l : List (κ × ν)} {k : κ} (v : ν)
    (h : lookupA l k = none) : setA l k v = l ++ [(k, v)] := by
  induction l with
  | nil => simp [setA]
  | cons kv rest ih =>
    rw [lookupA] at h
    by_cases hk : kv.1 = k
    · rw [if_pos hk] at h
      exact absurd h (by simp)
    · rw [if_neg hk] at h
      rw [setA, if_neg hk, List.cons_append, ih h]

theorem lookupA_of_getDA_ne {κ : Type} [DecidableEq κ] {l : List (κ × ℤ)} {k : κ} {w : ℤ}
    (h : getDA l k 0 = w) (hw : w ≠ 0) : lookupA l k = some w := by
  unfold getDA at h
  cases hl : lookupA l k with
  | none => rw [hl] at h; simp at h; exact absurd h.symm hw
  | some v => rw [hl] at h; simp at h; rw [h]

theorem lookupA_none_of_getDA_zero {κ : Type} [DecidableEq κ] {l : List (κ × ℤ)} {k : κ}
    (hnz : ∀ c ∈ l, c.2 ≠ 0) (h : getDA l k 0 = 0) : lookupA l k = none := by
  unfold getDA at h
  cases hl : lookupA l k with
  | none => rfl
  | some v =>
    rw [hl] at h
    simp at h
    exact absurd h (hnz (k, v) (mem_of_lookupA_eq_some hl))

theorem mem_flatMapL {α β : Type} {f : α → List β} {l : List α} {b : β} :
    b ∈ flatMapL f l ↔ ∃ a ∈ l, b ∈ f a := by
  induction l with
  | nil => simp [flatMapL]
  | cons a rest ih =>
    rw [flatMapL, List.mem_append, ih]
    constructor
    · rintro (hb | ⟨a2, ha2, hb⟩)
      · exact ⟨a, List.mem_cons_self _ _, hb⟩
      · exact ⟨a2, List.mem_cons_of_mem _ ha2, hb⟩
    · rintro ⟨a2, ha2, hb⟩
      rcases List.mem_cons.mp ha2 with rfl | hmem
      · exact Or.inl hb
      · exact Or.inr ⟨a2, hmem, hb⟩

theorem mem_of_mem_dedupByHash :
    ∀ (l : List SparseBoard) (seen : List (List Cell)) (t : SparseBoard),
      t ∈ dedupByHash l seen → t ∈ l := by
  intro l
  induction l with
  | nil => intro seen t h; simp [dedupByHash] at h
  | cons s rest ih =>
    intro seen t h
    rw [dedupByHash] at h
    by_cases hs : boardHash s ∈ seen
    · rw [if_pos hs] at h
      exact List.mem_cons_of_mem _ (ih _ _ h)
    · rw [if_neg hs] at h
      rcases List.mem_cons.mp h with rfl | hmem
      · exact List.mem_cons_self _ _
      · exact List.mem_cons_of_mem _ (ih _ _ hmem)

theorem occ_eq_some_iff {b : SparseBoard} {p : BoardPos} {z : ℤ} :
    occ b p = some z ↔
      (0 ≤ p.1 ∧ p.1 < b.width ∧ 0 ≤ p.2 ∧ p.2 < b.height) ∧ getDA b.board p 0 = z := by
  unfold occ
  split_ifs with hin
  · simp [hin]
  · constructor
    · intro h
      exact absurd h (by simp)
    · rintro ⟨h1, _⟩
      exact absurd h1 hin

theorem jumpGuard_eq_true_iff {b : SparseBoard} {player : ℤ} {p m : BoardPos} :
    jumpGuard b player p m = true ↔
      ∃ w, occ b (p.1 + m.1, p.2 + m.2) = some w ∧ w * player < 0 ∧
        occ b (p.1 + m.1 * 2, p.2 + m.2 * 2) = some 0 := by
  unfold jumpGuard
  cases h1 : occ b (p.1 + m.1, p.2 + m.2) with
  | none => simp
  | some w =>
    cases h2 : occ b (p.1 + m.1 * 2, p.2 + m.2 * 2) with
    | none => simp [h2]
    | some j =>
      simp only [Bool.and_eq_true, decide_eq_true_eq, Option.some.injEq]
      constructor
      · rintro ⟨hlt, hj⟩
        exact ⟨w, rfl, hlt, by rw [hj]⟩
      · rintro ⟨w2, hw2, hlt, hj⟩
        subst hw2
        exact ⟨hlt, hj⟩

theorem potentialMoves_components {m : BoardPos} {isKing : Bool} {player : ℤ}
    (h : m ∈ potentialMoves isKing player) :
    (m.1 = 1 ∨ m.1 = -1) ∧ (m.2 = player ∨ m.2 = -player) := by
  cases isKing <;> simp [potentialMoves] at h
  · rcases h with rfl | rfl <;> simp
  · rcases h with rfl | rfl | rfl | rfl <;> simp

theorem lookupA_none_iff_not_mem_keys {κ ν : Type} [DecidableEq κ] {l : List (κ × ν)} {k : κ} :
    lookupA l k = none ↔ k ∉ l.map Prod.fst := by
  rw [lookupA_eq_none_iff]
  constructor
  · intro hall hk
    obtain ⟨c, hc, hck⟩ := List.mem_map.mp hk
    have hceq : (k, c.2) = c := by
      obtain ⟨c1, c2⟩ := c
      simp only at hck
      rw [hck]
    exact hall c.2 (hceq ▸ hc)
  · intro hk v hv
    exact hk (List.mem_map_of_mem Prod.fst hv)

theorem mem_setA_elim {κ ν : Type} [DecidableEq κ] {l : List (κ × ν)} {k : κ} {v : ν} {c : κ × ν}
    (h : c ∈ setA l k v) : c ∈ l ∨ c = (k, v) := by
  induction l with
  | nil =>
    rw [setA] at h
    rcases List.mem_singleton.mp h with rfl
    exact Or.inr rfl
  | cons kv rest ih =>
    rw [setA] at h
    by_cases hk : kv.1 = k
    · rw [if_pos hk] at h
      rcases List.mem_cons.mp h with rfl | hmem
      · exact Or.inr rfl
      · exact Or.inl (List.mem_cons_of_mem _ hmem)
    · rw [if_neg hk] at h
      rcases List.mem_cons.mp h with rfl | hmem
      · exact Or.inl (List.mem_cons_self _ _)
      · rcases ih hmem with hl | he
        · exact Or.inl (List.mem_cons_of_mem _ hl)
        · exact Or.inr he

theorem nodup_keys_setA_of_none {κ ν : Type} [DecidableEq κ] {l : List (κ × ν)} {k : κ} (v : ν)
    (hnd : (l.map Prod.fst).Nodup) (hnone : lookupA l k = none) :
    ((setA l k v).map Prod.fst).Nodup := by
  rw [setA_of_lookup_none v hnone, List.map_append]
  rw [List.nodup_append]
  refine ⟨hnd, List.nodup_singleton _, ?_⟩
  intro a ha hb
  simp only [List.map_cons, List.map_nil, List.mem_singleton] at hb
  subst hb
  exact lookupA_none_iff_not_mem_keys.mp hnone ha

theorem length_setA_of_none {κ ν : Type} [DecidableEq κ] {l : List (κ × ν)} {k : κ} (v : ν)
    (hnone : lookupA l k = none) : (setA l k v).length = l.length + 1 := by
  rw [setA_of_lookup_none v hnone, List.length_append, List.length_singleton]

/-! ## C4: transposition-cache probe rule -/

/-- C4. Against a store whose entry for hash `h` is `(s0, d0, p0)`, the probe
returns `s0` exactly when the cache is enabled, the query depth is at most the
stored depth, and the player matches; it returns nothing otherwise.  The
store operation unconditionally replaces the entry for the hash. -/
theorem cache_probe_rule (es : ExploreState) (bd : SparseBoard) (h : BKey)
    (depth player : ℤ) (s0 : Score) (d0 p0 : ℤ)
    (hl : lookupA es.score_cache h = some (s0, d0, p0)) :
    get_cached_score es bd h depth player =
      (if es.use_score_cache = true ∧ depth ≤ d0 ∧ player = p0 then some s0 else none) ∧
    ∀ sc : Score,
      lookupA (cache_score es bd h depth player sc).score_cache h = some (sc, depth, player) := by
  constructor
  · unfold get_cached_score
    rw [hl]
    cases hc : es.use_score_cache
    · simp [hc]
    · simp only [hc, Bool.not_true, Bool.false_eq_true, if_false, true_and]
  · intro sc
    unfold cache_score
    exact lookupA_setA_self _ _ _

/-- C4 witness: a hit at equal depth and matching side, a miss at greater
depth, and the stored entry after a put. -/
theorem cache_probe_rule_witness :
    lookupA cacheState.score_cache [] = some (Score.val 5, 3, 1) ∧
    get_cached_score cacheState loopRoot [] 2 1 = some (Score.val 5) ∧
    get_cached_score cacheState loopRoot [] 4 1 = none ∧
    lookupA (cache_score cacheState loopRoot [] 2 1 (Score.val 7)).score_cache [] =
      some (Score.val 7, 2, 1) := by
  refine ⟨by decide, ?_, ?_, ?_⟩
  · rw [(cache_probe_rule cacheState loopRoot [] 2 1 (Score.val 5) 3 1 (by decide)).1]
    decide
  · rw [(cache_probe_rule cacheState loopRoot [] 4 1 (Score.val 5) 3 1 (by decide)).1]
    decide
  · exact (cache_probe_rule cacheState loopRoot [] 2 1 (Score.val 5) 3 1 (by decide)).2
      (Score.val 7)

/-! ## C5: no available move means loss for the side to move -/

/-- C5. With both colors present (`is_end = 0`) and no successors for the
side to move, `get_terminal_value_and_succ` returns `player * (-inf)`
(`-inf` for red, `+inf` for black) and no successors; when `is_end` is an
infinity it returns that infinity directly. -/
theorem no_move_means_loss (b : SparseBoard) (player : ℤ) :
    (is_end b = Score.val 0 → get_successors b player = [] → (player = 1 ∨ player = -1) →
      get_terminal_value_and_succ b player =
        ((if player = 1 then Score.negInf else Score.posInf), [])) ∧
    (is_end b = Score.posInf → get_terminal_value_and_succ b player = (Score.posInf, [])) ∧
    (is_end b = Score.negInf → get_terminal_value_and_succ b player = (Score.negInf, [])) := by
  refine ⟨?_, ?_, ?_⟩
  · intro h0 hsucc hp
    unfold get_terminal_value_and_succ
    rw [h0]
    simp only [scoreGtZero, scoreLtZero, hsucc]
    norm_num
    rcases hp with rfl | rfl
    · simp [mulIntScore]
    · simp [mulIntScore]
  · intro h
    unfold get_terminal_value_and_succ
    rw [h]
    simp [scoreGtZero]
  · intro h
    unfold get_terminal_value_and_succ
    rw [h]
    simp [scoreGtZero, scoreLtZero]

/-- C5 witness: the cornered black king has no moves; black to move loses
(value `+inf` for red). -/
theorem no_move_means_loss_witness :
    is_end cornerBoard = Score.val 0 ∧ get_successors cornerBoard (-1) = [] ∧
    get_terminal_value_and_succ cornerBoard (-1) = (Score.posInf, []) := by
  refine ⟨by decide, by decide, ?_⟩
  have h := (no_move_means_loss cornerBoard (-1)).1 (by decide) (by decide) (Or.inr rfl)
  simpa using h

/-! ## C7: promotion exactly at the destination -/

/-- C7. For a step or a jump of a piece of value `v` (man or king of either
color), the destination square of the resulting board holds a king iff the
piece was already a king or the destination row is the piece's king row
(`0` for red, `height - 1` for black); a man landing off its king row keeps
its value. -/
theorem promotion_at_destination (b : SparseBoard) (x y : ℤ) (m : BoardPos) (v : ℤ)
    (hv : lookupA b.board (x, y) = some v)
    (hval : v = 1 ∨ v = 2 ∨ v = -1 ∨ v = -2) :
    (∃ nv, lookupA (performMove b x y m).board (x + m.1, y + m.2) = some nv ∧
      ((nv = 2 ∨ nv = -2) ↔
        ((v = 2 ∨ v = -2) ∨ y + m.2 = (if 0 < v then 0 else b.height - 1))) ∧
      ((v = 1 ∨ v = -1) → y + m.2 ≠ (if 0 < v then 0 else b.height - 1) → nv = v)) ∧
    (∃ nv, lookupA (performJump b x y m).board (x + m.1 * 2, y + m.2 * 2) = some nv ∧
      ((nv = 2 ∨ nv = -2) ↔
        ((v = 2 ∨ v = -2) ∨ y + m.2 * 2 = (if 0 < v then 0 else b.height - 1))) ∧
      ((v = 1 ∨ v = -1) → y + m.2 * 2 ≠ (if 0 < v then 0 else b.height - 1) → nv = v)) := by
  have hgd : getDA b.board (x, y) 0 = v := by
    unfold getDA
    rw [hv]
    rfl
  constructor
  · have hb : (performMove b x y m).board =
        setA (delA b.board (x, y)) (x + m.1, y + m.2)
          (if v.natAbs = 1 then
            (if y + m.2 = (if 0 < v then 0 else b.height - 1) then v * 2 else v)
          else v) := by
      simp only [performMove, hgd]
    refine ⟨_, by rw [hb]; exact lookupA_setA_self _ _ _, ?_, ?_⟩
    · rcases hval with rfl | rfl | rfl | rfl <;> norm_num <;>
        split_ifs with hrow <;> simp [hrow]
    · intro hman hrow
      rcases hval with rfl | rfl | rfl | rfl <;> norm_num <;> simp_all
  · have hb : (performJump b x y m).board =
        setA (delA (delA b.board (x, y)) (x + m.1, y + m.2)) (x + m.1 * 2, y + m.2 * 2)
          (if v.natAbs = 1 then
            (if y + m.2 * 2 = (if 0 < v then 0 else b.height - 1) then v * 2 else v)
          else v) := by
      simp only [performJump, hgd]
    refine ⟨_, by rw [hb]; exact lookupA_setA_self _ _ _, ?_, ?_⟩
    · rcases hval with rfl | rfl | rfl | rfl <;> norm_num <;>
        split_ifs with hrow <;> simp [hrow]
    · intro hman hrow
      rcases hval with rfl | rfl | rfl | rfl <;> norm_num <;> simp_all

/-- C7 witness: the red man of `captureBoard` stepping from (2,4) to (3,3)
stays a man, and its jump from (2,4) landing on (4,2) stays a man (row 2 is
not red's king row). -/
theorem promotion_at_destination_witness :
    lookupA captureBoard.board (2, 4) = some 1 ∧
    (∃ nv, lookupA (performMove captureBoard 2 4 (1, -1)).board (3, 3) = some nv ∧ nv = 1) := by
  refine ⟨by decide, ?_⟩
  obtain ⟨nv, hl, _hiff, hman⟩ :=
    (promotion_at_destination captureBoard 2 4 (1, -1) 1 (by decide) (Or.inl rfl)).1
  exact ⟨nv, hl, hman (Or.inl rfl) (by decide)⟩

/-! ## C1: forced capture is exclusive -/

theorem performMove_length {b : SparseBoard} {x y : ℤ} {m : BoardPos} {v : ℤ}
    (hv : lookupA b.board (x, y) = some v)
    (hdest : lookupA b.board (x + m.1, y + m.2) = none) :
    (performMove b x y m).board.length = b.board.length := by
  have hval : getDA b.board (x, y) 0 = v := by
    unfold getDA
    rw [hv]
    rfl
  have hboard : (performMove b x y m).board =
      setA (delA b.board (x, y)) (x + m.1, y + m.2)
        (if v.natAbs = 1 then
          (if y + m.2 = (if 0 < v then 0 else b.height - 1) then v * 2 else v)
        else v) := by
    simp only [performMove, hval]
  have hdest2 : lookupA (delA b.board (x, y)) (x + m.1, y + m.2) = none := by
    rw [lookupA_eq_none_iff] at hdest ⊢
    intro v2 hv2
    exact hdest v2 (delA_subset _ _ _ hv2)
  have hdel := length_delA_of_lookup hv
  rw [hboard, length_setA_of_none _ hdest2]
  omega

theorem followJump_length_lt {player : ℤ} (_hp : player = 1 ∨ player = -1) :
    ∀ (fuel : ℕ) (self : SparseBoard) (x y : ℤ) (m : BoardPos) (isKing : Bool) (v w : ℤ),
      valsNonzero self → keysNodup self →
      lookupA self.board (x, y) = some v →
      (m.1 = 1 ∨ m.1 = -1) → (m.2 = player ∨ m.2 = -player) →
      lookupA self.board (x + m.1, y + m.2) = some w → w * player < 0 →
      lookupA self.board (x + m.1 * 2, y + m.2 * 2) = none →
      ∀ r ∈ followJump self fuel x y m isKing player, r.board.length < self.board.length := by
  intro fuel
  induction fuel with
  | zero =>
    intro self x y m isKing v w _ _ _ _ _ _ _ _ r hr
    simp [followJump] at hr
  | succ n ih =>
    intro self x y m isKing v w hnz hnd hv hm1 hm2 hw hwp hdest r hr
    have hvne : v ≠ 0 := hnz _ (mem_of_lookupA_eq_some hv)
    have hval : getDA self.board (x, y) 0 = v := by
      unfold getDA
      rw [hv]
      rfl
    have hboard : (performJump self x y m).board =
        setA (delA (delA self.board (x, y)) (x + m.1, y + m.2)) (x + m.1 * 2, y + m.2 * 2)
          (if v.natAbs = 1 then
            (if y + m.2 * 2 = (if 0 < v then 0 else self.height - 1) then v * 2 else v)
          else v) := by
      simp only [performJump, hval]
    have hnvne : (if v.natAbs = 1 then
        (if y + m.2 * 2 = (if 0 < v then 0 else self.height - 1) then v * 2 else v)
      else v) ≠ 0 := by
      split_ifs <;> omega
    have hne_mid_xy : ((x + m.1, y + m.2) : BoardPos) ≠ (x, y) := by
      intro h
      rw [Prod.mk.injEq] at h
      omega
    have hlen1 := length_delA_of_lookup hv
    have hmidl : lookupA (delA self.board (x, y)) (x + m.1, y + m.2) = some w := by
      rw [lookupA_delA_ne _ _ _ hne_mid_xy]
      exact hw
    have hlen2 := length_delA_of_lookup hmidl
    have hdest_ne_xy : ((x + m.1 * 2, y + m.2 * 2) : BoardPos) ≠ (x, y) := by
      intro h
      rw [Prod.mk.injEq] at h
      omega
    have hdest_ne_mid : ((x + m.1 * 2, y + m.2 * 2) : BoardPos) ≠ (x + m.1, y + m.2) := by
      intro h
      rw [Prod.mk.injEq] at h
      omega
    have hdest2 : lookupA (delA (delA self.board (x, y)) (x + m.1, y + m.2))
        (x + m.1 * 2, y + m.2 * 2) = none := by
      rw [lookupA_delA_ne _ _ _ hdest_ne_mid, lookupA_delA_ne _ _ _ hdest_ne_xy]
      exact hdest
    have hlen : (performJump self x y m).board.length + 1 = self.board.length := by
      rw [hboard, length_setA_of_none _ hdest2]
      omega
    have hnz2 : valsNonzero (performJump self x y m) := by
      intro c hc
      rw [hboard] at hc
      rcases mem_setA_elim hc with hcdel | rfl
      · exact hnz c (delA_subset _ _ c (delA_subset _ _ c hcdel))
      · exact hnvne
    have hnd2 : keysNodup (performJump self x y m) := by
      show ((performJump self x y m).board.map Prod.fst).Nodup
      rw [hboard]
      exact nodup_keys_setA_of_none _
        ((delA_map_fst_sublist _ _).nodup ((delA_map_fst_sublist _ _).nodup hnd)) hdest2
    simp only [followJump] at hr
    by_cases hc : (flatMapL
        (fun mv =>
          if jumpGuard self player (x + m.1 * 2, y + m.2 * 2) mv then
            followJump (performJump self x y m) n (x + m.1 * 2) (y + m.2 * 2) mv isKing player
          else [])
        (potentialMoves isKing player)).isEmpty
    · rw [if_pos hc] at hr
      rcases List.mem_singleton.mp hr with rfl
      omega
    · rw [if_neg hc] at hr
      rw [mem_flatMapL] at hr
      obtain ⟨mv, hmv, hrin⟩ := hr
      by_cases hguard : jumpGuard self player (x + m.1 * 2, y + m.2 * 2) mv = true
      swap
      · rw [if_neg hguard] at hrin
        simp at hrin
      rw [if_pos hguard] at hrin
      obtain ⟨hmv1, hmv2⟩ := potentialMoves_components hmv
      rw [jumpGuard_eq_true_iff] at hguard
      obtain ⟨w2, hocc1, hw2p, hocc2⟩ := hguard
      simp only at hocc1 hocc2
      have hget1 := (occ_eq_some_iff.mp hocc1).2
      have hget2 := (occ_eq_some_iff.mp hocc2).2
      simp only at hget1 hget2
      have hw2ne : w2 ≠ 0 := by
        intro h
        rw [h] at hw2p
        simp at hw2p
      have hlook1 : lookupA self.board (x + m.1 * 2 + mv.1, y + m.2 * 2 + mv.2) = some w2 :=
        lookupA_of_getDA_ne hget1 hw2ne
      have hlookjl : lookupA self.board (x + m.1 * 2 + mv.1 * 2, y + m.2 * 2 + mv.2 * 2) = none :=
        lookupA_none_of_getDA_zero hnz hget2
      have hjl_ne_xy : ((x + m.1 * 2 + mv.1 * 2, y + m.2 * 2 + mv.2 * 2) : BoardPos) ≠ (x, y) := by
        intro heq
        rw [heq, hv] at hlookjl
        simp at hlookjl
      have hmid2_ne_xy : ((x + m.1 * 2 + mv.1, y + m.2 * 2 + mv.2) : BoardPos) ≠ (x, y) := by
        intro heq
        rw [Prod.mk.injEq] at heq
        omega
      have hmid2_ne_mid :
          ((x + m.1 * 2 + mv.1, y + m.2 * 2 + mv.2) : BoardPos) ≠ (x + m.1, y + m.2) := by
        intro heq
        rw [Prod.mk.injEq] at heq
        apply hjl_ne_xy
        rw [Prod.mk.injEq]
        omega
      have hmid2_ne_dest :
          ((x + m.1 * 2 + mv.1, y + m.2 * 2 + mv.2) : BoardPos) ≠ (x + m.1 * 2, y + m.2 * 2) := by
        intro heq
        rw [Prod.mk.injEq] at heq
        omega
      have hjl_ne_mid :
          ((x + m.1 * 2 + mv.1 * 2, y + m.2 * 2 + mv.2 * 2) : BoardPos) ≠ (x + m.1, y + m.2) := by
        intro heq
        rw [Prod.mk.injEq] at heq
        omega
      have hjl_ne_dest :
          ((x + m.1 * 2 + mv.1 * 2, y + m.2 * 2 + mv.2 * 2) : BoardPos) ≠
            (x + m.1 * 2, y + m.2 * 2) := by
        intro heq
        rw [Prod.mk.injEq] at heq
        omega
      have hlooknb1 : lookupA (performJump self x y m).board
          (x + m.1 * 2 + mv.1, y + m.2 * 2 + mv.2) = some w2 := by
        rw [hboard, lookupA_setA_ne _ _ _ _ hmid2_ne_dest,
          lookupA_delA_ne _ _ _ hmid2_ne_mid, lookupA_delA_ne _ _ _ hmid2_ne_xy]
        exact hlook1
      have hlooknb2 : lookupA (performJump self x y m).board
          (x + m.1 * 2 + mv.1 * 2, y + m.2 * 2 + mv.2 * 2) = none := by
        rw [hboard, lookupA_setA_ne _ _ _ _ hjl_ne_dest,
          lookupA_delA_ne _ _ _ hjl_ne_mid, lookupA_delA_ne _ _ _ hjl_ne_xy]
        exact hlookjl
      have hlooknbv : lookupA (performJump self x y m).board (x + m.1 * 2, y + m.2 * 2) =
          some (if v.natAbs = 1 then
            (if y + m.2 * 2 = (if 0 < v then 0 else self.height - 1) then v * 2 else v)
          else v) := by
        rw [hboard]
        exact lookupA_setA_self _ _ _
      have hr_lt := ih (performJump self x y m) (x + m.1 * 2) (y + m.2 * 2) mv isKing _ w2
        hnz2 hnd2 hlooknbv hmv1 hmv2 hlooknb1 hw2p hlooknb2 r hrin
      omega

/-- C1. If the successor set for `(b, player)` contains any position with
strictly fewer pieces (i.e. some jump was available), then every element of
the set has strictly fewer pieces than `b`: no non-capture move appears. -/
theorem forced_capture_exclusive (b : SparseBoard) (player : ℤ)
    (hp : player = 1 ∨ player = -1) (hnz : valsNonzero b) (hnd : keysNodup b)
    (hcap : ∃ t ∈ get_successors b player, pieceCount t < pieceCount b) :
    ∀ t ∈ get_successors b player, pieceCount t < pieceCount b := by
  have hMlen : ∀ t ∈ flatMapL
      (fun c =>
        if 0 < c.2 * player then
          flatMapL
            (fun m =>
              if occ b (c.1.1 + m.1, c.1.2 + m.2) = some 0 then [performMove b c.1.1 c.1.2 m]
              else [])
            (potentialMoves (decide (c.2 * player = 2)) player)
        else []) b.board, t.board.length = b.board.length := by
    intro t ht
    rw [mem_flatMapL] at ht
    obtain ⟨c, hc, ht⟩ := ht
    by_cases hpos : 0 < c.2 * player
    swap
    · rw [if_neg hpos] at ht
      simp at ht
    rw [if_pos hpos, mem_flatMapL] at ht
    obtain ⟨m, _hm, ht⟩ := ht
    by_cases hocc : occ b (c.1.1 + m.1, c.1.2 + m.2) = some 0
    swap
    · rw [if_neg hocc] at ht
      simp at ht
    rw [if_pos hocc] at ht
    rcases List.mem_singleton.mp ht with rfl
    have hlookc : lookupA b.board (c.1.1, c.1.2) = some c.2 := lookupA_eq_some_of_mem hnd hc
    have hget0 := (occ_eq_some_iff.mp hocc).2
    have hdest : lookupA b.board (c.1.1 + m.1, c.1.2 + m.2) = none :=
      lookupA_none_of_getDA_zero hnz hget0
    exact performMove_length hlookc hdest
  have hJlen : ∀ t ∈ flatMapL
      (fun c =>
        if 0 < c.2 * player then
          flatMapL
            (fun m =>
              if jumpGuard b player c.1 m then
                followJump b (pieceCount b + 1) c.1.1 c.1.2 m (decide (c.2 * player = 2)) player
              else [])
            (potentialMoves (decide (c.2 * player = 2)) player)
        else []) b.board, t.board.length < b.board.length := by
    intro t ht
    rw [mem_flatMapL] at ht
    obtain ⟨c, hc, ht⟩ := ht
    by_cases hpos : 0 < c.2 * player
    swap
    · rw [if_neg hpos] at ht
      simp at ht
    rw [if_pos hpos, mem_flatMapL] at ht
    obtain ⟨m, hm, ht⟩ := ht
    by_cases hguard : jumpGuard b player c.1 m = true
    swap
    · rw [if_neg hguard] at ht
      simp at ht
    rw [if_pos hguard] at ht
    obtain ⟨hmv1, hmv2⟩ := potentialMoves_components hm
    rw [jumpGuard_eq_true_iff] at hguard
    obtain ⟨w, hocc1, hwp, hocc2⟩ := hguard
    have hwne : w ≠ 0 := by
      intro h
      rw [h] at hwp
      simp at hwp
    have hlookc : lookupA b.board (c.1.1, c.1.2) = some c.2 := lookupA_eq_some_of_mem hnd hc
    have hlook1 : lookupA b.board (c.1.1 + m.1, c.1.2 + m.2) = some w :=
      lookupA_of_getDA_ne (occ_eq_some_iff.mp hocc1).2 hwne
    have hlook2 : lookupA b.board (c.1.1 + m.1 * 2, c.1.2 + m.2 * 2) = none :=
      lookupA_none_of_getDA_zero hnz (occ_eq_some_iff.mp hocc2).2
    exact followJump_length_lt hp (pieceCount b + 1) b c.1.1 c.1.2 m
      (decide (c.2 * player = 2)) c.2 w hnz hnd hlookc hmv1 hmv2 hlook1 hwp hlook2 t ht
  simp only [pieceCount] at hcap ⊢
  obtain ⟨t0, ht0, hlt0⟩ := hcap
  intro t ht
  by_cases hJ : (flatMapL
      (fun c =>
        if 0 < c.2 * player then
          flatMapL
            (fun m =>
              if jumpGuard b player c.1 m then
                followJump b (pieceCount b + 1) c.1.1 c.1.2 m (decide (c.2 * player = 2)) player
              else [])
            (potentialMoves (decide (c.2 * player = 2)) player)
        else []) b.board).isEmpty
  · exfalso
    have hm0 : t0 ∈ flatMapL
        (fun c =>
          if 0 < c.2 * player then
            flatMapL
              (fun m =>
                if occ b (c.1.1 + m.1, c.1.2 + m.2) = some 0 then [performMove b c.1.1 c.1.2 m]
                else [])
              (potentialMoves (decide (c.2 * player = 2)) player)
          else []) b.board := by
      have := mem_of_mem_dedupByHash _ _ _ (show t0 ∈ dedupByHash _ [] from ht0)
      rw [if_pos hJ] at this
      exact this
    have := hMlen t0 hm0
    omega
  · have hmj : t ∈ flatMapL
        (fun c =>
          if 0 < c.2 * player then
            flatMapL
              (fun m =>
                if jumpGuard b player c.1 m then
                  followJump b (pieceCount b + 1) c.1.1 c.1.2 m (decide (c.2 * player = 2)) player
                else [])
              (potentialMoves (decide (c.2 * player = 2)) player)
          else []) b.board := by
      have := mem_of_mem_dedupByHash _ _ _ (show t ∈ dedupByHash _ [] from ht)
      rw [if_neg hJ] at this
      exact this
    exact hJlen t hmj

/-- C1 witness: `captureBoard` has a capture available, and every returned
successor has fewer pieces. -/
theorem forced_capture_exclusive_witness :
    valsNonzero captureBoard ∧ keysNodup captureBoard ∧
    (∃ t ∈ get_successors captureBoard 1, pieceCount t < pieceCount captureBoard) ∧
    (∀ t ∈ get_successors captureBoard 1, pieceCount t < pieceCount captureBoard) := by
  refine ⟨by decide, by decide, by decide, ?_⟩
  exact forced_capture_exclusive captureBoard 1 (Or.inl rfl) (by decide) (by decide) (by decide)

/-! ## C2: mid-sequence promotion does not grant king mobility -/

theorem occ_eq_none_of_row_neg {b : SparseBoard} {p : BoardPos} (h : p.2 < 0) :
    occ b p = none := by
  unfold occ
  rw [if_neg]
  omega

theorem occ_eq_none_of_row_ge {b : SparseBoard} {p : BoardPos} (h : b.height ≤ p.2) :
    occ b p = none := by
  unfold occ
  rw [if_neg]
  omega

theorem jumpGuard_false_of_mid_none {b : SparseBoard} {player : ℤ} {p m : BoardPos}
    (h : occ b (p.1 + m.1, p.2 + m.2) = none) : jumpGuard b player p m = false := by
  unfold jumpGuard
  rw [h]

/-- C2 counterexample: on `promoBoard`, the red man's jump to (2,0) promotes
it, and a king there could jump again over (1,1) (the source's own
continuation guard holds for that backward move), yet the produced successor
set is exactly the single board where the black man at (1,1) survives: the
continuation was generated with the man's forward-only directions, not with
king mobility. -/
theorem midjump_promotion_claim_false :
    jumpGuard promoBoard 1 (2, 0) (-1, 1) = true ∧
    get_successors promoBoard 1 = [promoBoardSucc] ∧
    lookupA promoBoardSucc.board (1, 1) = some (-1) ∧
    lookupA promoBoardSucc.board (2, 0) = some 2 ∧
    pieceCount promoBoardSucc = 2 := by
  refine ⟨by decide, by decide, by decide, by decide, by decide⟩

/-- C2 (amended).  `_follow_jump` keeps the `is_king` flag the piece had at
the start of the turn; when a man's jump lands on its own side's king row
(`0` for player `1`, `height - 1` for player `-1`), both forward
continuation squares are off the board, so the jump sequence ends with
exactly the promoted board — the piece never uses king mobility within the
same turn. -/
theorem midjump_promotion_ends_sequence (self : SparseBoard) (fuel : ℕ) (x y : ℤ)
    (m : BoardPos) (player : ℤ) (hp : player = 1 ∨ player = -1)
    (hland : y + m.2 * 2 = (if player = 1 then 0 else self.height - 1)) :
    followJump self (fuel + 1) x y m false player = [performJump self x y m] := by
  rcases hp with rfl | rfl
  · rw [if_pos rfl] at hland
    have hpm : potentialMoves false (1 : ℤ) = [(1, -1), (-1, -1)] := by
      norm_num [potentialMoves]
    have hg1 : jumpGuard self 1 (x + m.1 * 2, y + m.2 * 2) (1, -1) = false :=
      jumpGuard_false_of_mid_none (occ_eq_none_of_row_neg (by show y + m.2 * 2 + -1 < 0; omega))
    have hg2 : jumpGuard self 1 (x + m.1 * 2, y + m.2 * 2) (-1, -1) = false :=
      jumpGuard_false_of_mid_none (occ_eq_none_of_row_neg (by show y + m.2 * 2 + -1 < 0; omega))
    have hconts : flatMapL
        (fun mv =>
          if jumpGuard self 1 (x + m.1 * 2, y + m.2 * 2) mv then
            followJump (performJump self x y m) fuel (x + m.1 * 2) (y + m.2 * 2) mv false 1
          else [])
        (potentialMoves false 1) = [] := by
      rw [hpm, flatMapL, flatMapL, flatMapL]
      rw [if_neg (by rw [hg1]; simp), if_neg (by rw [hg2]; simp)]
      rfl
    simp only [followJump]
    rw [hconts]
    rfl
  · rw [if_neg (by omega)] at hland
    have hpm : potentialMoves false (-1 : ℤ) = [(1, 1), (-1, 1)] := by
      norm_num [potentialMoves]
    have hg1 : jumpGuard self (-1) (x + m.1 * 2, y + m.2 * 2) (1, 1) = false :=
      jumpGuard_false_of_mid_none
        (occ_eq_none_of_row_ge (by show self.height ≤ y + m.2 * 2 + 1; omega))
    have hg2 : jumpGuard self (-1) (x + m.1 * 2, y + m.2 * 2) (-1, 1) = false :=
      jumpGuard_false_of_mid_none
        (occ_eq_none_of_row_ge (by show self.height ≤ y + m.2 * 2 + 1; omega))
    have hconts : flatMapL
        (fun mv =>
          if jumpGuard self (-1) (x + m.1 * 2, y + m.2 * 2) mv then
            followJump (performJump self x y m) fuel (x + m.1 * 2) (y + m.2 * 2) mv false (-1)
          else [])
        (potentialMoves false (-1)) = [] := by
      rw [hpm, flatMapL, flatMapL, flatMapL]
      rw [if_neg (by rw [hg1]; simp), if_neg (by rw [hg2]; simp)]
      rfl
    simp only [followJump]
    rw [hconts]
    rfl

/-- C2 witness for the amended statement: the promoting jump of
`promoBoard`. -/
theorem midjump_promotion_ends_sequence_witness :
    ((1 : ℤ) = 1 ∨ (1 : ℤ) = -1) ∧
    ((2 : ℤ) + (-1, -1).2 * 2 = (if (1 : ℤ) = 1 then 0 else promoBoard.height - 1)) ∧
    followJump promoBoard (3 + 1) 4 2 (-1, -1) false 1 = [performJump promoBoard 4 2 (-1, -1)] := by
  refine ⟨Or.inl rfl, by decide, ?_⟩
  exact midjump_promotion_ends_sequence promoBoard 3 4 2 (-1, -1) 1 (Or.inl rfl) (by decide)

/-! ## C6: hash discrimination -/

theorem lookupA_eq_of_hash_eq {b1 b2 : SparseBoard} (h2 : keysNodup b2)
    (hh : boardHash b1 = boardHash b2) {k : BoardPos} {v : ℤ}
    (hl : lookupA b1.board k = some v) : lookupA b2.board k = some v := by
  have hm : (k, v) ∈ b1.board := mem_of_lookupA_eq_some hl
  have hm1 : (k, v) ∈ boardHash b1 := by
    unfold boardHash
    exact (List.perm_insertionSort cellRel b1.board).symm.subset hm
  rw [hh] at hm1
  have hm2 : (k, v) ∈ b2.board :=
    (List.perm_insertionSort cellRel b2.board).subset hm1
  exact lookupA_eq_some_of_mem h2 hm2

/-- C6. With distinct keys (a dict invariant), two boards hash equal iff they
have identical square-to-value mappings; in particular a position differing
only by one square's rank (man vs king of the same color) hashes
differently. -/
theorem hash_discrimination (b1 b2 : SparseBoard) (h1 : keysNodup b1) (h2 : keysNodup b2) :
    (boardHash b1 = boardHash b2 ↔ ∀ k, lookupA b1.board k = lookupA b2.board k) ∧
    (∀ k v, lookupA b1.board k = some v → lookupA b2.board k = some (2 * v) → v ≠ 0 →
      boardHash b1 ≠ boardHash b2) := by
  have main : boardHash b1 = boardHash b2 ↔ ∀ k, lookupA b1.board k = lookupA b2.board k := by
    constructor
    · intro hh k
      cases hc : lookupA b1.board k with
      | some v => rw [lookupA_eq_of_hash_eq h2 hh hc]
      | none =>
        cases hc2 : lookupA b2.board k with
        | none => rfl
        | some w =>
          have hw := lookupA_eq_of_hash_eq h1 hh.symm hc2
          exact absurd (hw.symm.trans hc) (by simp)
    · intro hl
      unfold boardHash
      have hnd1 : b1.board.Nodup := List.Nodup.of_map Prod.fst h1
      have hnd2 : b2.board.Nodup := List.Nodup.of_map Prod.fst h2
      have hsub12 : b1.board ⊆ b2.board := by
        intro c hc
        have hc1 : lookupA b1.board c.1 = some c.2 := lookupA_eq_some_of_mem h1 hc
        have hc2 : lookupA b2.board c.1 = some c.2 := by rw [← hl]; exact hc1
        exact mem_of_lookupA_eq_some hc2
      have hsub21 : b2.board ⊆ b1.board := by
        intro c hc
        have hc2 : lookupA b2.board c.1 = some c.2 := lookupA_eq_some_of_mem h2 hc
        have hc1 : lookupA b1.board c.1 = some c.2 := by rw [hl]; exact hc2
        exact mem_of_lookupA_eq_some hc1
      have hperm : b1.board.Perm b2.board :=
        (hnd1.subperm hsub12).antisymm (hnd2.subperm hsub21)
      exact List.eq_of_perm_of_sorted
        (((List.perm_insertionSort cellRel b1.board).trans hperm).trans
          (List.perm_insertionSort cellRel b2.board).symm)
        (List.sorted_insertionSort cellRel b1.board)
        (List.sorted_insertionSort cellRel b2.board)
  refine ⟨main, ?_⟩
  intro k v hv hv2 hvne heq
  have h := (main.mp heq) k
  rw [hv, hv2] at h
  simp only [Option.some.injEq] at h
  omega

/-- C6 witness: toggling the red man at (2,4) of `captureBoard` to a king
changes the hash. -/
theorem hash_discrimination_witness :
    keysNodup captureBoard ∧ keysNodup toggledBoard ∧
    boardHash captureBoard ≠ boardHash toggledBoard := by
  refine ⟨by decide, by decide, ?_⟩
  exact (hash_discrimination captureBoard toggledBoard (by decide) (by decide)).2
    (2, 4) 1 (by decide) (by decide) (by decide)

/-! ## C3: principal-variation recovery -/

theorem length_filter_lt_of_mem_false {α : Type} {p : α → Bool} {l : List α} {a : α}
    (ha : a ∈ l) (hpa : p a = false) : (l.filter p).length < l.length := by
  induction l with
  | nil => simp at ha
  | cons x rest ih =>
    rcases List.mem_cons.mp ha with rfl | hmem
    · rw [List.filter_cons_of_neg (by simp [hpa])]
      exact Nat.lt_succ_of_le (List.length_filter_le p rest)
    · cases hx : p x
      · rw [List.filter_cons_of_neg (by simp [hx])]
        exact Nat.lt_succ_of_lt (ih hmem)
      · rw [List.filter_cons_of_pos (by simp [hx]), List.length_cons, List.length_cons]
        exact Nat.succ_lt_succ (ih hmem)

theorem length_filter_subpred_lt {α : Type} (l : List α) (p q : α → Bool)
    (himp : ∀ x ∈ l, q x = true → p x = true) (a : α) (ha : a ∈ l)
    (hpa : p a = true) (hqa : q a = false) :
    (l.filter q).length < (l.filter p).length := by
  have h1 : l.filter q = (l.filter p).filter q := by
    rw [List.filter_filter]
    apply List.filter_congr
    intro x hx
    cases hqx : q x
    · simp
    · simp [himp x hx hqx]
  rw [h1]
  exact length_filter_lt_of_mem_false (List.mem_filter.mpr ⟨ha, hpa⟩) hqa

theorem remHashes_lt {strategy : List ((BKey × ℤ) × (SparseBoard × Score))}
    {inPath : List BKey} {key : BKey × ℤ} {nb : SparseBoard} {sc : Score}
    (hl : lookupA strategy key = some (nb, sc)) (hnotin : boardHash nb ∉ inPath) :
    remHashes strategy (boardHash nb :: inPath) < remHashes strategy inPath := by
  unfold remHashes
  apply length_filter_subpred_lt
  · intro x _ hq
    simp only [Bool.not_eq_true', decide_eq_false_iff_not] at hq ⊢
    exact fun hx => hq (List.mem_cons_of_mem _ hx)
  · unfold rangeHashes
    rw [List.mem_dedup]
    exact List.mem_map.mpr ⟨(key, (nb, sc)), mem_of_lookupA_eq_some hl, rfl⟩
  · simp [hnotin]
  · simp

theorem recoverAux_stable (strategy : List ((BKey × ℤ) × (SparseBoard × Score))) :
    ∀ f1 f2 (b : SparseBoard) (player : ℤ) (inPath : List BKey),
      remHashes strategy inPath < f1 → remHashes strategy inPath < f2 →
      recoverAux strategy f1 b player inPath = recoverAux strategy f2 b player inPath := by
  intro f1
  induction f1 with
  | zero =>
    intro f2 b p inPath h1 h2
    omega
  | succ n ih =>
    intro f2 b p inPath h1 h2
    cases f2 with
    | zero => omega
    | succ m =>
      cases hl : lookupA strategy (boardHash b, p) with
      | none => simp only [recoverAux, hl]
      | some val =>
        obtain ⟨nb, sc⟩ := val
        simp only [recoverAux, hl]
        by_cases hin : boardHash nb ∈ inPath
        · rw [if_pos hin, if_pos hin]
        · rw [if_neg hin, if_neg hin]
          congr 1
          have hlt := remHashes_lt hl hin
          exact ih m nb (-p) (boardHash nb :: inPath) (by omega) (by omega)

theorem count_le_one_of_nodup {α : Type} [BEq α] [LawfulBEq α] {l : List α} (h : l.Nodup)
    (a : α) : l.count a ≤ 1 := by
  induction l with
  | nil => simp
  | cons x rest ih =>
    rw [List.nodup_cons] at h
    rw [List.count_cons]
    cases hax : x == a
    · have hle := ih h.2
      simp
      omega
    · have hax2 : x = a := beq_iff_eq.mp hax
      have hz : rest.count a = 0 := by
        rw [List.count_eq_zero]
        rw [← hax2]
        exact h.1
      simp [hz]

theorem recoverAux_hashes (strategy : List ((BKey × ℤ) × (SparseBoard × Score))) :
    ∀ fuel (b : SparseBoard) (player : ℤ) (inPath : List BKey),
      ((recoverAux strategy fuel b player inPath).map boardHash).Nodup ∧
      ∀ h ∈ (recoverAux strategy fuel b player inPath).map boardHash, h ∉ inPath := by
  intro fuel
  induction fuel with
  | zero =>
    intro b p inPath
    simp [recoverAux]
  | succ n ih =>
    intro b p inPath
    cases hl : lookupA strategy (boardHash b, p) with
    | none => simp [recoverAux, hl]
    | some val =>
      obtain ⟨nb, sc⟩ := val
      by_cases hin : boardHash nb ∈ inPath
      · simp [recoverAux, hl, hin]
      · simp only [recoverAux, hl, if_neg hin, List.map_cons]
        obtain ⟨ihnd, ihdisj⟩ := ih nb (-p) (boardHash nb :: inPath)
        constructor
        · rw [List.nodup_cons]
          exact ⟨fun hmem => (ihdisj _ hmem) (List.mem_cons_self _ _), ihnd⟩
        · intro h hmem
          rcases List.mem_cons.mp hmem with rfl | hmem2
          · exact hin
          · exact fun hc => (ihdisj _ hmem2) (List.mem_cons_of_mem _ hc)

/-- C3 counterexample: with a strategy mapping the root back to itself, the
recovered path is `[root, root]` — the root's hash appears twice, because the
cycle safeguard never adds the root's own hash to the guard set.  This
refutes the claim that no board hash appears twice, the root included. -/
theorem pv_recovery_root_repeats :
    recover_best_path loopState loopRoot 1 = [loopRoot, loopRoot] ∧
    ¬ ((recover_best_path loopState loopRoot 1).map boardHash).Nodup := by
  constructor
  · decide
  · decide

/-- C3 (amended).  `recover_best_path` terminates (any fuel at least
`strategy.length + 1` computes the same list), begins with the root, and
never repeats a hash among the boards appended after the root; hence any
hash — the root's included — appears at most twice in the whole path, and
only the root's can appear twice. -/
theorem pv_recovery_no_repeat_after_root (es : ExploreState) (b : SparseBoard) (player : ℤ) :
    (recover_best_path es b player).head? = some b ∧
    ((recover_best_path es b player).tail.map boardHash).Nodup ∧
    (∀ k, ((recover_best_path es b player).map boardHash).count k ≤ 2) ∧
    (∀ fuel, es.strategy.length + 1 ≤ fuel →
      b :: recoverAux es.strategy fuel b player [] = recover_best_path es b player) := by
  have hbound : remHashes es.strategy [] ≤ es.strategy.length := by
    unfold remHashes rangeHashes
    calc ((es.strategy.map (fun e => boardHash e.2.1)).dedup.filter _).length
        ≤ (es.strategy.map (fun e => boardHash e.2.1)).dedup.length :=
          List.length_filter_le _ _
      _ ≤ (es.strategy.map (fun e => boardHash e.2.1)).length :=
          (List.dedup_sublist _).length_le
      _ = es.strategy.length := List.length_map _ _
  refine ⟨rfl, ?_, ?_, ?_⟩
  · unfold recover_best_path
    simp only [List.tail_cons]
    exact (recoverAux_hashes es.strategy _ b player []).1
  · intro k
    have hnd := (recoverAux_hashes es.strategy (es.strategy.length + 1) b player []).1
    have hle := count_le_one_of_nodup hnd k
    unfold recover_best_path
    rw [List.map_cons, List.count_cons]
    split_ifs <;> omega
  · intro fuel hf
    unfold recover_best_path
    congr 1
    exact recoverAux_stable es.strategy fuel (es.strategy.length + 1) b player []
      (by omega) (by omega)

/-- C3 witness for the amended statement, instantiated at the looping
strategy. -/
theorem pv_recovery_no_repeat_after_root_witness :
    ((recover_best_path loopState loopRoot 1).tail.map boardHash).Nodup ∧
    loopState.strategy.length + 1 ≤ 3 ∧
    loopRoot :: recoverAux loopState.strategy 3 loopRoot 1 [] =
      recover_best_path loopState loopRoot 1 := by
  refine ⟨(pv_recovery_no_repeat_after_root loopState loopRoot 1).2.1, by decide, ?_⟩
  exact (pv_recovery_no_repeat_after_root loopState loopRoot 1).2.2.2 3 (by decide)

/-! ## C10: evaluate is defined exactly on non-empty boards -/

/-- C10. `utility` equals `evaluate`; on a board with at least one piece
`evaluate` returns the piece-value sum divided by the piece count; on the
empty board the unguarded division fails (no value). -/
theorem evaluate_defined_iff_nonempty (b : SparseBoard) :
    utility b = evaluate b ∧
    (b.board ≠ [] →
      evaluate b = some ((((b.board.map (fun c => c.2)).sum : ℤ) : ℚ) / ((pieceCount b : ℕ) : ℚ))) ∧
    (b.board = [] → evaluate b = none) := by
  refine ⟨rfl, ?_, ?_⟩
  · intro hne
    unfold evaluate pieceCount
    rw [if_neg (fun h => hne (List.length_eq_zero.mp h))]
  · intro he
    unfold evaluate
    rw [he]
    simp

/-! ## C9: rejection of characters outside the allowed set -/

theorem allowedChar_of_charToIntOpt {c : Char} {v : ℤ} (h : charToIntOpt c = some v) :
    allowedChar c = true := by
  unfold charToIntOpt at h
  split_ifs at h with h1 h2 h3 h4
  · subst h1; decide
  · subst h2; decide
  · subst h3; decide
  · subst h4; decide

theorem charToIntOpt_isSome_of_allowed {c : Char} (h : allowedChar c = true) (hdot : c ≠ '.') :
    ∃ v, charToIntOpt c = some v := by
  unfold allowedChar at h
  simp only [Bool.or_eq_true, decide_eq_true_eq, or_assoc] at h
  rcases h with h | h | h | h | h
  · exact absurd h hdot
  · exact ⟨1, by subst h; decide⟩
  · exact ⟨2, by subst h; decide⟩
  · exact ⟨-1, by subst h; decide⟩
  · exact ⟨-2, by subst h; decide⟩

theorem parseLineGo_error {y : ℤ} :
    ∀ (chars : List Char) (x : ℤ) (acc : List Cell),
      (∃ c ∈ chars, allowedChar c = false) →
      parseLineGo y x chars acc = .error .badFormat := by
  intro chars
  induction chars with
  | nil =>
    intro x acc h
    simp at h
  | cons c rest ih =>
    intro x acc h
    obtain ⟨c0, hc0, hbad⟩ := h
    rw [parseLineGo]
    by_cases hdot : c = '.'
    · rw [if_pos hdot]
      apply ih
      rcases List.mem_cons.mp hc0 with rfl | hmem
      · exact absurd hbad (by rw [hdot]; decide)
      · exact ⟨c0, hmem, hbad⟩
    · rw [if_neg hdot]
      cases hci : charToIntOpt c with
      | none => rfl
      | some v =>
        apply ih
        rcases List.mem_cons.mp hc0 with rfl | hmem
        · exact absurd hbad (by rw [allowedChar_of_charToIntOpt hci]; decide)
        · exact ⟨c0, hmem, hbad⟩

theorem parseLineGo_ok {y : ℤ} :
    ∀ (chars : List Char) (x : ℤ) (acc : List Cell),
      (∀ c ∈ chars, allowedChar c = true) →
      ∃ acc2, parseLineGo y x chars acc = .ok acc2 := by
  intro chars
  induction chars with
  | nil =>
    intro x acc _
    exact ⟨acc, rfl⟩
  | cons c rest ih =>
    intro x acc h
    rw [parseLineGo]
    by_cases hdot : c = '.'
    · rw [if_pos hdot]
      exact ih _ _ (fun c2 hc2 => h c2 (List.mem_cons_of_mem _ hc2))
    · rw [if_neg hdot]
      obtain ⟨v, hv⟩ := charToIntOpt_isSome_of_allowed (h c (List.mem_cons_self _ _)) hdot
      rw [hv]
      exact ih _ _ (fun c2 hc2 => h c2 (List.mem_cons_of_mem _ hc2))

theorem readLinesGo_error :
    ∀ (lines : List (List Char)) (y : ℤ) (acc : List Cell),
      (∃ line ∈ lines, ∃ c ∈ pyRstrip line, allowedChar c = false) →
      readLinesGo y lines acc = .error .badFormat := by
  intro lines
  induction lines with
  | nil =>
    intro y acc h
    simp at h
  | cons line rest ih =>
    intro y acc h
    obtain ⟨l0, hl0, hbad⟩ := h
    rw [readLinesGo]
    by_cases hthis : ∃ c ∈ pyRstrip line, allowedChar c = false
    · rw [parseLineGo_error _ _ _ hthis]
    · have hgood : ∀ c ∈ pyRstrip line, allowedChar c = true := by
        intro c hc
        cases hac : allowedChar c
        · exact absurd ⟨c, hc, hac⟩ hthis
        · rfl
      obtain ⟨acc2, hok⟩ := parseLineGo_ok _ _ _ hgood
      rw [hok]
      apply ih
      rcases List.mem_cons.mp hl0 with rfl | hmem
      · exact absurd hbad hthis
      · exact ⟨l0, hmem, hbad⟩

/-- C9 counterexample: the input `"r \n"` contains a space — a character
outside `{'.','r','R','b','B'}` that is no line terminator — yet the reader
strips it (`line.rstrip()`) and returns a board instead of failing.
Likewise a no-break space (U+00A0) is rstripped, and a lone `'\r'` acts as
a row boundary (`str.splitlines`), so `"r\rb\n"` parses into two rows. -/
theorem bad_char_claim_false :
    allowedChar ' ' = false ∧ isLineBreak ' ' = false ∧
    read_from_string ['r', ' ', '\n'] =
      .ok { width := 8, height := 8, board := [(((0 : ℤ), (0 : ℤ)), (1 : ℤ))] } ∧
    allowedChar (Char.ofNat 160) = false ∧ isLineBreak (Char.ofNat 160) = false ∧
    read_from_string ['r', Char.ofNat 160, '\n'] =
      .ok { width := 8, height := 8, board := [(((0 : ℤ), (0 : ℤ)), (1 : ℤ))] } ∧
    allowedChar '\r' = false ∧
    read_from_string ['r', '\r', 'b', '\n'] =
      .ok { width := 8, height := 8
            board := [(((0 : ℤ), (0 : ℤ)), (1 : ℤ)), (((0 : ℤ), (1 : ℤ)), (-1 : ℤ))] } := by
  refine ⟨by decide, by decide, by decide, by decide, by decide, by decide, by decide, by decide⟩

/-- C9 (amended).  If any line of the input still contains a character
outside the allowed set after its trailing whitespace is stripped, reading
fails with `BadFormat`; trailing whitespace itself is ignored. -/
theorem bad_char_rejected (text : List Char)
    (h : ∃ line ∈ splitLines text, ∃ c ∈ pyRstrip line, allowedChar c = false) :
    read_from_string text = .error .badFormat := by
  unfold read_from_string
  rw [readLinesGo_error _ _ _ h]

/-- C9 witness: `"rx\n"` is rejected. -/
theorem bad_char_rejected_witness :
    (∃ line ∈ splitLines ['r', 'x', '\n'], ∃ c ∈ pyRstrip line, allowedChar c = false) ∧
    read_from_string ['r', 'x', '\n'] = .error .badFormat := by
  refine ⟨by decide, ?_⟩
  exact bad_char_rejected ['r', 'x', '\n'] (by decide)

/-! ## C8: render / read round trip -/

theorem valsRange_nonzero {b : SparseBoard} (h : valsRange b) : ∀ c ∈ b.board, c.2 ≠ 0 :=
  fun c hc => by rcases h c hc with h1 | h1 | h1 | h1 <;> omega

theorem getDA_cases {b : SparseBoard} (hvals : valsRange b) (p : BoardPos) :
    getDA b.board p 0 = 0 ∨ getDA b.board p 0 = 1 ∨ getDA b.board p 0 = 2 ∨
      getDA b.board p 0 = -1 ∨ getDA b.board p 0 = -2 := by
  unfold getDA
  cases hl : lookupA b.board p with
  | none => exact Or.inl rfl
  | some v =>
    have hv : v = 1 ∨ v = 2 ∨ v = -1 ∨ v = -2 := hvals _ (mem_of_lookupA_eq_some hl)
    right
    rcases hv with rfl | rfl | rfl | rfl <;> simp

theorem dropWhile_eq_self_of_none {p : Char → Bool} :
    ∀ l : List Char, (∀ c ∈ l, p c = false) → l.dropWhile p = l := by
  intro l h
  cases l with
  | nil => rfl
  | cons c rest =>
    rw [List.dropWhile_cons, h c (List.mem_cons_self _ _)]
    simp

theorem isPySpace_chrOf (v : ℤ) : isPySpace (chrOf v) = false := by
  unfold chrOf
  split_ifs <;> decide

theorem chrOf_not_lineBreak (v : ℤ) : isLineBreak (chrOf v) = false := by
  unfold chrOf
  split_ifs <;> decide

theorem pyRstrip_eq_self {l : List Char} (h : ∀ c ∈ l, isPySpace c = false) :
    pyRstrip l = l := by
  unfold pyRstrip
  rw [dropWhile_eq_self_of_none _ (fun c hc => h c (List.mem_reverse.mp hc)),
    List.reverse_reverse]

theorem rowChars_no_space (b : SparseBoard) (y : ℤ) :
    ∀ c ∈ rowChars b y, isPySpace c = false := by
  intro c hc
  obtain ⟨x, _, rfl⟩ := List.mem_map.mp hc
  exact isPySpace_chrOf _

theorem rowChars_no_lineBreak (b : SparseBoard) (y : ℤ) :
    ∀ c ∈ rowChars b y, isLineBreak c = false := by
  intro c hc
  obtain ⟨x, _, rfl⟩ := List.mem_map.mp hc
  exact chrOf_not_lineBreak _

theorem renderCells_eq {b : SparseBoard} (hvals : valsRange b) (y : ℤ) :
    ∀ xs : List ℕ,
      renderCells b y xs = some (xs.map (fun x : ℕ => chrOf (getDA b.board ((x : ℤ), y) 0))) := by
  intro xs
  induction xs with
  | nil => rfl
  | cons x rest ih =>
    rw [renderCells, ih, List.map_cons]
    rcases getDA_cases hvals ((x : ℤ), y) with h | h | h | h | h <;> rw [h] <;> rfl

theorem renderRows_eq {b : SparseBoard} (hvals : valsRange b) :
    ∀ ys : List ℕ,
      renderRows b ys = some (flatMapL (fun y : ℕ => rowChars b (y : ℤ) ++ ['\n']) ys) := by
  intro ys
  induction ys with
  | nil => rfl
  | cons y rest ih =>
    rw [renderRows, ih,
      show renderCells b (y : ℤ) (List.range b.width.toNat) = some (rowChars b (y : ℤ)) from
        renderCells_eq hvals _ _,
      flatMapL]
    simp

theorem flatMapL_map {α β γ : Type} (f : β → List γ) (g : α → β) :
    ∀ l : List α, flatMapL f (l.map g) = flatMapL (fun x => f (g x)) l := by
  intro l
  induction l with
  | nil => rfl
  | cons a rest ih => rw [List.map_cons, flatMapL, flatMapL, ih]

theorem splitLinesAux_append :
    ∀ line : List Char, (∀ c ∈ line, isLineBreak c = false) →
      ∀ cur rest : List Char,
        splitLinesAux false cur (line ++ '\n' :: rest) =
          (cur.reverse ++ line) :: splitLinesAux false [] rest := by
  intro line
  induction line with
  | nil =>
    intro _ cur rest
    rw [List.nil_append]
    show splitLinesAux false cur ('\n' :: rest) = (cur.reverse ++ []) :: splitLinesAux false [] rest
    rw [List.append_nil]
    rfl
  | cons c cs ih =>
    intro hnl cur rest
    have hc : isLineBreak c = false := hnl c (List.mem_cons_self _ _)
    have hcr : ¬(c = '\r') := by
      intro h
      rw [h] at hc
      exact absurd hc (by decide)
    rw [List.cons_append, splitLinesAux,
      if_neg (by simp), if_neg hcr, if_neg (by rw [hc]; simp),
      ih (fun c2 h2 => hnl c2 (List.mem_cons_of_mem _ h2)) (c :: cur) rest]
    simp

theorem splitLines_rows :
    ∀ lines : List (List Char), (∀ l ∈ lines, ∀ c ∈ l, isLineBreak c = false) →
      splitLines (flatMapL (fun l => l ++ ['\n']) lines) = lines := by
  intro lines
  induction lines with
  | nil =>
    intro _
    rfl
  | cons l rest ih =>
    intro h
    show splitLinesAux false [] (flatMapL (fun l2 => l2 ++ ['\n']) (l :: rest)) = l :: rest
    rw [flatMapL, List.append_assoc, List.singleton_append,
      splitLinesAux_append l (h l (List.mem_cons_self _ _)) [] _,
      List.reverse_nil, List.nil_append]
    exact congrArg (l :: ·) (ih (fun l2 hl2 => h l2 (List.mem_cons_of_mem _ hl2)))

theorem parseLineGo_segment {b : SparseBoard} (hvals : valsRange b) (y : ℤ) :
    ∀ (n x0 : ℕ) (acc : List Cell),
      ∃ acc2,
        parseLineGo y (x0 : ℤ)
          ((List.range' x0 n).map (fun x : ℕ => chrOf (getDA b.board ((x : ℤ), y) 0))) acc =
          .ok acc2 ∧
        ∀ p : BoardPos, lookupA acc2 p =
          if p.2 = y ∧ (x0 : ℤ) ≤ p.1 ∧ p.1 < ((x0 + n : ℕ) : ℤ) ∧ lookupA b.board p ≠ none
          then lookupA b.board p
          else lookupA acc p := by
  intro n
  induction n with
  | zero =>
    intro x0 acc
    refine ⟨acc, rfl, ?_⟩
    intro p
    rw [if_neg]
    rintro ⟨_, h2, h3, _⟩
    omega
  | succ n ihn =>
    intro x0 acc
    rw [List.range'_succ, List.map_cons]
    have hcast : ((x0 : ℤ) + 1) = (((x0 + 1 : ℕ)) : ℤ) := by push_cast; ring
    by_cases hz : getDA b.board (((x0 : ℕ) : ℤ), y) 0 = 0
    · rw [parseLineGo, if_pos (by rw [hz]; decide)]
      obtain ⟨acc2, hrun, hinv⟩ := ihn (x0 + 1) acc
      refine ⟨acc2, by rw [hcast]; exact hrun, ?_⟩
      intro p
      rw [hinv p]
      have hnone : lookupA b.board (((x0 : ℕ) : ℤ), y) = none :=
        lookupA_none_of_getDA_zero (valsRange_nonzero hvals) hz
      by_cases houter : p.2 = y ∧ (x0 : ℤ) ≤ p.1 ∧ p.1 < ((x0 + (n + 1) : ℕ) : ℤ) ∧
          lookupA b.board p ≠ none
      · rw [if_pos houter]
        by_cases hpx : p.1 = (x0 : ℤ)
        · exfalso
          have hp : p = (((x0 : ℕ) : ℤ), y) := Prod.ext_iff.mpr ⟨hpx, houter.1⟩
          exact houter.2.2.2 (hp ▸ hnone)
        · rw [if_pos ⟨houter.1, by omega, by omega, houter.2.2.2⟩]
      · rw [if_neg houter, if_neg]
        rintro ⟨h1, h2, h3, h4⟩
        exact houter ⟨h1, by omega, by omega, h4⟩
    · have hlook : lookupA b.board (((x0 : ℕ) : ℤ), y) =
          some (getDA b.board (((x0 : ℕ) : ℤ), y) 0) := lookupA_of_getDA_ne rfl hz
      have h4 : getDA b.board (((x0 : ℕ) : ℤ), y) 0 = 1 ∨
          getDA b.board (((x0 : ℕ) : ℤ), y) 0 = 2 ∨
          getDA b.board (((x0 : ℕ) : ℤ), y) 0 = -1 ∨
          getDA b.board (((x0 : ℕ) : ℤ), y) 0 = -2 := by
        rcases getDA_cases hvals (((x0 : ℕ) : ℤ), y) with h | h | h | h | h
        · exact absurd h hz
        all_goals simp [h]
      have hdot : chrOf (getDA b.board (((x0 : ℕ) : ℤ), y) 0) ≠ '.' := by
        rcases h4 with h | h | h | h <;> rw [h] <;> decide
      have hcti : charToIntOpt (chrOf (getDA b.board (((x0 : ℕ) : ℤ), y) 0)) =
          some (getDA b.board (((x0 : ℕ) : ℤ), y) 0) := by
        rcases h4 with h | h | h | h <;> rw [h] <;> decide
      rw [parseLineGo, if_neg hdot, hcti]
      obtain ⟨acc2, hrun, hinv⟩ :=
        ihn (x0 + 1) (setA acc (((x0 : ℕ) : ℤ), y) (getDA b.board (((x0 : ℕ) : ℤ), y) 0))
      refine ⟨acc2, by rw [hcast]; exact hrun, ?_⟩
      intro p
      rw [hinv p]
      by_cases houter : p.2 = y ∧ (x0 : ℤ) ≤ p.1 ∧ p.1 < ((x0 + (n + 1) : ℕ) : ℤ) ∧
          lookupA b.board p ≠ none
      · rw [if_pos houter]
        by_cases hpx : p.1 = (x0 : ℤ)
        · have hp : p = (((x0 : ℕ) : ℤ), y) := Prod.ext_iff.mpr ⟨hpx, houter.1⟩
          rw [if_neg (by rintro ⟨_, h2, _, _⟩; omega)]
          rw [hp, lookupA_setA_self, hlook]
        · rw [if_pos ⟨houter.1, by omega, by omega, houter.2.2.2⟩]
      · rw [if_neg houter]
        by_cases hih : p.2 = y ∧ ((x0 + 1 : ℕ) : ℤ) ≤ p.1 ∧ p.1 < ((x0 + 1 + n : ℕ) : ℤ) ∧
            lookupA b.board p ≠ none
        · exact absurd ⟨hih.1, by omega, by omega, hih.2.2.2⟩ houter
        · rw [if_neg hih]
          apply lookupA_setA_ne
          intro hp
          apply houter
          subst hp
          refine ⟨rfl, by omega, by omega, ?_⟩
          rw [hlook]
          simp

theorem readLinesGo_rows {b : SparseBoard} (hvals : valsRange b) :
    ∀ (n y0 : ℕ) (acc : List Cell),
      ∃ acc2,
        readLinesGo (y0 : ℤ) ((List.range' y0 n).map (fun y : ℕ => rowChars b (y : ℤ))) acc =
          .ok acc2 ∧
        ∀ p : BoardPos, lookupA acc2 p =
          if (y0 : ℤ) ≤ p.2 ∧ p.2 < ((y0 + n : ℕ) : ℤ) ∧ 0 ≤ p.1 ∧
              p.1 < ((b.width.toNat : ℕ) : ℤ) ∧ lookupA b.board p ≠ none
          then lookupA b.board p
          else lookupA acc p := by
  intro n
  induction n with
  | zero =>
    intro y0 acc
    refine ⟨acc, rfl, ?_⟩
    intro p
    rw [if_neg]
    rintro ⟨h1, h2, _, _, _⟩
    omega
  | succ n ihn =>
    intro y0 acc
    rw [List.range'_succ, List.map_cons, readLinesGo,
      pyRstrip_eq_self (rowChars_no_space b ((y0 : ℕ) : ℤ)),
      show rowChars b ((y0 : ℕ) : ℤ) =
        (List.range' 0 b.width.toNat).map
          (fun x : ℕ => chrOf (getDA b.board ((x : ℤ), ((y0 : ℕ) : ℤ)) 0)) from by
        unfold rowChars
        rw [List.range_eq_range']]
    obtain ⟨accR, hrunR, hinvR⟩ := parseLineGo_segment hvals ((y0 : ℕ) : ℤ) b.width.toNat 0 acc
    simp only [Nat.cast_zero] at hrunR
    rw [hrunR]
    obtain ⟨acc2, hrun2, hinv2⟩ := ihn (y0 + 1) accR
    have hcast : ((y0 : ℤ) + 1) = (((y0 + 1 : ℕ)) : ℤ) := by push_cast; ring
    refine ⟨acc2, by rw [hcast]; exact hrun2, ?_⟩
    intro p
    rw [hinv2 p]
    by_cases houter : (y0 : ℤ) ≤ p.2 ∧ p.2 < ((y0 + (n + 1) : ℕ) : ℤ) ∧ 0 ≤ p.1 ∧
        p.1 < ((b.width.toNat : ℕ) : ℤ) ∧ lookupA b.board p ≠ none
    · rw [if_pos houter]
      by_cases hp2 : p.2 = (y0 : ℤ)
      · rw [if_neg (by rintro ⟨h1, _, _, _, _⟩; omega)]
        rw [hinvR p, if_pos ⟨hp2, by omega, by omega, houter.2.2.2.2⟩]
      · rw [if_pos ⟨by omega, by omega, houter.2.2.1, houter.2.2.2.1, houter.2.2.2.2⟩]
    · rw [if_neg houter]
      by_cases hih : ((y0 + 1 : ℕ) : ℤ) ≤ p.2 ∧ p.2 < ((y0 + 1 + n : ℕ) : ℤ) ∧ 0 ≤ p.1 ∧
          p.1 < ((b.width.toNat : ℕ) : ℤ) ∧ lookupA b.board p ≠ none
      · exact absurd ⟨by omega, by omega, hih.2.2.1, hih.2.2.2.1, hih.2.2.2.2⟩ houter
      · rw [if_neg hih, hinvR p, if_neg]
        rintro ⟨h1, h2, h3, h4⟩
        exact houter ⟨by omega, by omega, by omega, by omega, h4⟩

/-- C8. Rendering a default-size board whose pieces are in bounds and then
parsing the text yields a board with exactly the same square-to-value
mapping. -/
theorem render_read_round_trip (b : SparseBoard)
    (hw : b.width = 8) (hh : b.height = 8) (hvals : valsRange b)
    (hbounds : ∀ c ∈ b.board, 0 ≤ c.1.1 ∧ c.1.1 < 8 ∧ 0 ≤ c.1.2 ∧ c.1.2 < 8) :
    ∃ txt rb, render b = some txt ∧ read_from_string txt = Except.ok rb ∧
      ∀ p : BoardPos, lookupA rb.board p = lookupA b.board p := by
  have hrender : render b =
      some (flatMapL (fun y : ℕ => rowChars b (y : ℤ) ++ ['\n']) (List.range b.height.toNat)) :=
    renderRows_eq hvals _
  have hsplit : splitLines
      (flatMapL (fun y : ℕ => rowChars b (y : ℤ) ++ ['\n']) (List.range b.height.toNat)) =
      (List.range b.height.toNat).map (fun y : ℕ => rowChars b (y : ℤ)) := by
    rw [show flatMapL (fun y : ℕ => rowChars b (y : ℤ) ++ ['\n']) (List.range b.height.toNat) =
        flatMapL (fun l => l ++ ['\n'])
          ((List.range b.height.toNat).map (fun y : ℕ => rowChars b (y : ℤ))) from
      (flatMapL_map (fun l => l ++ ['\n']) (fun y : ℕ => rowChars b (y : ℤ))
        (List.range b.height.toNat)).symm]
    apply splitLines_rows
    intro l hl
    obtain ⟨y, _, rfl⟩ := List.mem_map.mp hl
    exact rowChars_no_lineBreak b _
  obtain ⟨acc2, hrun, hinv⟩ := readLinesGo_rows hvals b.height.toNat 0 []
  simp only [Nat.cast_zero] at hrun
  have hread : read_from_string
      (flatMapL (fun y : ℕ => rowChars b (y : ℤ) ++ ['\n']) (List.range b.height.toNat)) =
      Except.ok { width := 8, height := 8, board := acc2 } := by
    unfold read_from_string
    rw [hsplit, List.range_eq_range', hrun]
  refine ⟨_, _, hrender, hread, ?_⟩
  intro p
  show lookupA acc2 p = lookupA b.board p
  rw [hinv p]
  have h8w : ((b.width.toNat : ℕ) : ℤ) = 8 := by rw [hw]; decide
  have h8h : ((0 + b.height.toNat : ℕ) : ℤ) = 8 := by rw [hh]; decide
  cases hsome : lookupA b.board p with
  | none =>
    rw [if_neg]
    · rfl
    · rintro ⟨_, _, _, _, hne⟩
      exact hne rfl
  | some v =>
    have hmem : (p, v) ∈ b.board := mem_of_lookupA_eq_some hsome
    have hb := hbounds (p, v) hmem
    dsimp only at hb
    rw [if_pos ⟨by omega, by omega, by omega, by omega, by simp⟩]

/-- C8 witness: the round trip at `captureBoard`. -/
theorem render_read_round_trip_witness :
    valsRange captureBoard ∧
    (∀ c ∈ captureBoard.board, 0 ≤ c.1.1 ∧ c.1.1 < 8 ∧ 0 ≤ c.1.2 ∧ c.1.2 < 8) ∧
    (∃ txt rb, render captureBoard = some txt ∧ read_from_string txt = Except.ok rb ∧
      ∀ p : BoardPos, lookupA rb.board p = lookupA captureBoard.board p) := by
  refine ⟨by decide, by decide, ?_⟩
  exact render_read_round_trip captureBoard rfl rfl (by decide) (by decide)

/-- C10 witness: `promoBoard` (three pieces) evaluates to its average; the
empty board has no value. -/
theorem evaluate_defined_iff_nonempty_witness :
    promoBoard.board ≠ [] ∧
    evaluate promoBoard =
      some ((((promoBoard.board.map (fun c => c.2)).sum : ℤ) : ℚ) / ((pieceCount promoBoard : ℕ) : ℚ)) ∧
    evaluate { width := 8, height := 8, board := [] } = none := by
  refine ⟨by decide, ?_, ?_⟩
  · exact (evaluate_defined_iff_nonempty promoBoard).2.1 (by decide)
  · exact (evaluate_defined_iff_nonempty { width := 8, height := 8, board := [] }).2.2 rfl

end Checkers
